import Mathlib

/-!
Verification of the stroke-clustering and expression-evaluation core of the
AI-Math-Notes repository, as a shallow embedding in Lean.

Coordinates, timestamps and confidences are modelled as rational numbers;
the JavaScript source computes with IEEE doubles, but every operation the
embedded code performs (min, max, +, -, *, /, comparisons) agrees with exact
rational arithmetic on the inputs considered here, except for `Math.sqrt` in
`boundingBoxDistance`, which is handled by comparing squared distances (the
square root is strictly monotone on nonnegative reals, and the source only
ever compares distances with distances or thresholds).

The embedding covers:
- `my-app/lib/stroke-utils.ts` (4-field bounding boxes, box distance,
  two-argument merge, `findClosestGroup`) and the group-update portion of
  `finishDrawing` in `my-app/app/v2/page.tsx`;
- `my-app/lib/character-grouper.ts` (`shouldStartNewCharacter`,
  `CharacterGrouper.addStroke` as a pure state transition);
- `my-app/lib/geometry.ts` (8-field bounding boxes, list merge,
  `calculateOverlapRatio`, `shouldGroupStrokes`);
- `my-app/lib/stroke-grouping.ts` (`groupStrokesIntoCharacters` with its
  union-find over stroke indices, `addStrokeToCharacters`);
- the `mergeDoubleMinusToEquals` pass of the unnamed expression-parser file;
- the math-solver file (`normalizeExpression`, `parseExpression`,
  `evaluateExpression`, the global variable scope as explicit state).
-/

namespace StrokeUtils

/-- Bounding box as used by `stroke-utils.ts` and `character-grouper.ts`:
only the four extremal coordinates. -/
structure BBox where
  minX : ℚ
  minY : ℚ
  maxX : ℚ
  maxY : ℚ
  deriving DecidableEq, Repr

/-- Point of a stroke (`{x, y, timestamp}`). -/
structure Pt where
  x : ℚ
  y : ℚ
  timestamp : ℚ
  deriving DecidableEq, Repr

/-- Stroke as used by the v2 page and `character-grouper.ts`: a point list, a
stored bounding box and the stroke's timestamp.  The string `id` field of the
source is irrelevant to every operation modelled here and is omitted. -/
structure Stroke where
  points : List Pt
  boundingBox : BBox
  timestamp : ℚ
  deriving DecidableEq, Repr

/-- Embeds `calculateBoundingBox` of `stroke-utils.ts`: fold min/max over the
points, zero box for the empty list.  The source initializes with plus and
minus Infinity and folds over all points; for a nonempty list this equals
folding from the first point. -/
def calculateBoundingBox (points : List Pt) : BBox :=
  match points with
  | [] => ⟨0, 0, 0, 0⟩
  | p :: ps =>
    ps.foldl (fun box q =>
      ⟨min box.minX q.x, min box.minY q.y, max box.maxX q.x, max box.maxY q.y⟩)
      ⟨p.x, p.y, p.x, p.y⟩

/-- Embeds the two-argument `mergeBoundingBoxes` of `stroke-utils.ts`. -/
def mergeBoundingBoxes (a b : BBox) : BBox :=
  ⟨min a.minX b.minX, min a.minY b.minY, max a.maxX b.maxX, max a.maxY b.maxY⟩

/-- Embeds `boundingBoxDistance` of `stroke-utils.ts` up to the final
`Math.sqrt`: it returns the squared Euclidean gap `dx*dx + dy*dy`.  The source
returns the square root; since the square root is strictly monotone and the
repository only compares this value against thresholds and other distances,
all comparisons are performed here on squares. -/
def boundingBoxDistanceSq (a b : BBox) : ℚ :=
  let dx : ℚ :=
    if a.maxX < b.minX then b.minX - a.maxX
    else if b.maxX < a.minX then a.minX - b.maxX
    else 0
  let dy : ℚ :=
    if a.maxY < b.minY then b.minY - a.maxY
    else if b.maxY < a.minY then a.minY - b.maxY
    else 0
  dx * dx + dy * dy

/-- Stroke group of the v2 page: member strokes and the group's bounding box.
The source's `id`, `result`, `expression` and `isProcessing` fields do not
influence the grouping decisions modelled here; results/expressions being
cleared on membership change is represented by the group being rebuilt. -/
structure StrokeGroup where
  strokes : List Stroke
  boundingBox : BBox
  deriving DecidableEq, Repr

/-- Embeds `calculateGroupBoundingBox` of `stroke-utils.ts`. -/
def calculateGroupBoundingBox (strokes : List Stroke) : BBox :=
  match strokes with
  | [] => ⟨0, 0, 0, 0⟩
  | s :: ss => ss.foldl (fun r t => mergeBoundingBoxes r t.boundingBox) s.boundingBox

/-- Embeds the loop of `findClosestGroup` of `stroke-utils.ts`.  `best` is
`none` while `closestIndex = -1, closestDistance = Infinity`, and
`some (i, dSq)` once a candidate has been found; comparisons are on squared
distances (see `boundingBoxDistanceSq`), with the squared threshold. -/
def findClosestGroupAux (sbox : BBox) (thresholdSq : ℚ) :
    List StrokeGroup → ℕ → Option (ℕ × ℚ) → Option (ℕ × ℚ)
  | [], _, best => best
  | g :: gs, i, best =>
    let dSq := boundingBoxDistanceSq sbox g.boundingBox
    let accept : Bool :=
      dSq ≤ thresholdSq && match best with
        | none => true
        | some (_, c) => dSq < c
    if accept then findClosestGroupAux sbox thresholdSq gs (i + 1) (some (i, dSq))
    else findClosestGroupAux sbox thresholdSq gs (i + 1) best

/-- Embeds `findClosestGroup` of `stroke-utils.ts`: index of the closest group
within the threshold, `-1` when none qualifies.  `thresholdSq` is the square
of the source's `threshold` (default 50). -/
def findClosestGroup (stroke : Stroke) (groups : List StrokeGroup)
    (thresholdSq : ℚ) : ℤ :=
  match findClosestGroupAux stroke.boundingBox thresholdSq groups 0 none with
  | none => -1
  | some (i, _) => (i : ℤ)

/-- Embeds the group-update step of `finishDrawing` in `my-app/app/v2/page.tsx`:
add the stroke to the closest group within the threshold (rebuilding that
group's box), or append a fresh singleton group. -/
def finishDrawingGroups (newStroke : Stroke) (groups : List StrokeGroup)
    (thresholdSq : ℚ) : List StrokeGroup :=
  let closest := findClosestGroup newStroke groups thresholdSq
  if closest ≥ 0 then
    groups.mapIdx (fun i g =>
      if (i : ℤ) = closest then
        let newStrokes := g.strokes ++ [newStroke]
        ⟨newStrokes, calculateGroupBoundingBox newStrokes⟩
      else g)
  else
    groups ++ [⟨[newStroke], newStroke.boundingBox⟩]

end StrokeUtils

namespace CharacterGrouper

open StrokeUtils

/-- Candidate glyph of `character-grouper.ts` (`CharacterCandidate`).  The
source's optional `recognizedAs`/`confidence` fields are written only by
`updateRecognition`, which no modelled claim touches; they are carried as
options.  The string id `char-<n>` is carried as the counter value `n`. -/
structure CharacterCandidate where
  id : ℕ
  strokes : List Stroke
  boundingBox : BBox
  lastStrokeTime : ℚ
  isComplete : Bool
  recognizedAs : Option String
  confidence : Option ℚ
  deriving DecidableEq, Repr

/-- Configuration knobs of `CHARACTER_CONFIG` in `character-grouper.ts`. -/
structure Config where
  completionTimeout : ℚ
  maxStrokeDistance : ℚ
  maxAspectRatio : ℚ
  minCharSize : ℚ
  maxCharSize : ℚ
  deriving DecidableEq, Repr

/-- The source's `CHARACTER_CONFIG` constant. -/
def CHARACTER_CONFIG : Config := ⟨400, 40, 5/2, 10, 150⟩

/-- Embeds `shouldStartNewCharacter` of `character-grouper.ts`.  The source
compares `boundingBoxDistance` (a square root) against
`config.MAX_STROKE_DISTANCE`; the comparison is performed here on squares,
which is equivalent for a nonnegative configured distance. -/
def shouldStartNewCharacter (newStroke : Stroke)
    (currentChar : Option CharacterCandidate) (config : Config) : Bool :=
  match currentChar with
  | none => true
  | some c =>
    if c.strokes = [] then true
    else
      let timeSinceLastStroke := newStroke.timestamp - c.lastStrokeTime
      if timeSinceLastStroke > config.completionTimeout then true
      else if boundingBoxDistanceSq newStroke.boundingBox c.boundingBox
          > config.maxStrokeDistance * config.maxStrokeDistance then true
      else
        let combinedBox := mergeBoundingBoxes newStroke.boundingBox c.boundingBox
        let width := combinedBox.maxX - combinedBox.minX
        let height := combinedBox.maxY - combinedBox.minY
        if width > height * config.maxAspectRatio && width > config.maxCharSize then
          true
        else if width > config.maxCharSize && height > config.maxCharSize then
          true
        else false

/-- State of the `CharacterGrouper` class: completed characters, the
in-progress candidate and the id counter.  The completion timer and the
completion callback are host-scheduler side effects outside this model; only
the synchronous state transition of `addStroke` is embedded. -/
structure GrouperState where
  characters : List CharacterCandidate
  currentCharacter : Option CharacterCandidate
  nextId : ℕ
  deriving DecidableEq, Repr

/-- Embeds `finalizeCurrentCharacter`: a nonempty candidate is marked complete
and appended to the finished list; in every case the candidate slot empties. -/
def finalizeCurrentCharacter (st : GrouperState) : GrouperState :=
  match st.currentCharacter with
  | some c =>
    if c.strokes ≠ [] then
      { st with
        characters := st.characters ++ [{ c with isComplete := true }],
        currentCharacter := none }
    else { st with currentCharacter := none }
  | none => { st with currentCharacter := none }

/-- Embeds `CharacterGrouper.addStroke` as a pure state transition (the timer
reset at the end of the source method schedules future work and does not
change the grouping state). -/
def addStroke (st : GrouperState) (stroke : Stroke) : GrouperState :=
  if shouldStartNewCharacter stroke st.currentCharacter CHARACTER_CONFIG then
    let st' := finalizeCurrentCharacter st
    { st' with
      currentCharacter := some
        ⟨st'.nextId, [stroke], stroke.boundingBox, stroke.timestamp, false, none, none⟩,
      nextId := st'.nextId + 1 }
  else
    match st.currentCharacter with
    | some c =>
      { st with
        currentCharacter := some
          { c with
            strokes := c.strokes ++ [stroke],
            boundingBox := mergeBoundingBoxes c.boundingBox stroke.boundingBox,
            lastStrokeTime := stroke.timestamp } }
    | none => st

end CharacterGrouper

namespace Geometry

/-- Bounding box as used by `geometry.ts` and the unnamed math-notes files:
extremal coordinates plus the derived width/height/center fields. -/
structure BoundingBox where
  minX : ℚ
  minY : ℚ
  maxX : ℚ
  maxY : ℚ
  width : ℚ
  height : ℚ
  centerX : ℚ
  centerY : ℚ
  deriving DecidableEq, Repr, Inhabited

/-- Derived-field invariant of the data model: width/height/center are
recomputed from the extremal coordinates, never hand-edited. -/
def BoundingBox.Wf (b : BoundingBox) : Prop :=
  b.width = b.maxX - b.minX ∧ b.height = b.maxY - b.minY ∧
  b.centerX = b.minX + b.width / 2 ∧ b.centerY = b.minY + b.height / 2

instance (b : BoundingBox) : Decidable b.Wf := by
  unfold BoundingBox.Wf; infer_instance

/-- Stroke of the math-notes pipeline: point list plus stored bounding box
(the string id does not influence any modelled operation and is omitted). -/
structure Stroke where
  points : List StrokeUtils.Pt
  boundingBox : BoundingBox
  deriving DecidableEq, Repr, Inhabited

/-- Glyph cluster (`Character` in `types.ts`): member strokes, merged box,
recognition label and confidence.  The generated id (`Date.now()` plus a
random suffix in the source) is nondeterministic and is omitted; no modelled
operation reads it. -/
structure Character where
  strokes : List Stroke
  boundingBox : BoundingBox
  recognized : Option String
  confidence : ℚ
  deriving DecidableEq, Repr, Inhabited

/-- Embeds the list-valued `mergeBoundingBoxes` of `geometry.ts`: zero box for
the empty list, otherwise min/max folds with the derived fields recomputed.
The source initializes the folds with plus and minus Infinity; on a nonempty
list that equals folding from the first box. -/
def mergeBoundingBoxes (boxes : List BoundingBox) : BoundingBox :=
  match boxes with
  | [] => ⟨0, 0, 0, 0, 0, 0, 0, 0⟩
  | b :: bs =>
    let minX := bs.foldl (fun m x => min m x.minX) b.minX
    let minY := bs.foldl (fun m x => min m x.minY) b.minY
    let maxX := bs.foldl (fun m x => max m x.maxX) b.maxX
    let maxY := bs.foldl (fun m x => max m x.maxY) b.maxY
    let width := maxX - minX
    let height := maxY - minY
    ⟨minX, minY, maxX, maxY, width, height, minX + width / 2, minY + height / 2⟩

/-- Per-axis overlap ratios and combined score of `calculateOverlapRatio`. -/
structure OverlapRatio where
  overlapX : ℚ
  overlapY : ℚ
  combined : ℚ
  deriving DecidableEq, Repr

/-- Embeds `calculateOverlapRatio` of `geometry.ts`. -/
def calculateOverlapRatio (box1 box2 : BoundingBox) : OverlapRatio :=
  let overlapX := max 0 (min box1.maxX box2.maxX - max box1.minX box2.minX)
  let minWidth := min box1.width box2.width
  let overlapXRatio := if minWidth > 0 then overlapX / minWidth else 0
  let overlapY := max 0 (min box1.maxY box2.maxY - max box1.minY box2.minY)
  let minHeight := min box1.height box2.height
  let overlapYRatio := if minHeight > 0 then overlapY / minHeight else 0
  let centerDistX := |box1.centerX - box2.centerX|
  let centerDistY := |box1.centerY - box2.centerY|
  let avgWidth := (box1.width + box2.width) / 2
  let avgHeight := (box1.height + box2.height) / 2
  let proximityX := if avgWidth > 0 then max 0 (1 - centerDistX / avgWidth) else 0
  let proximityY := if avgHeight > 0 then max 0 (1 - centerDistY / avgHeight) else 0
  let combined :=
    (overlapXRatio * (3/10) + proximityX * (2/10)) *
      (overlapYRatio * (3/10) + proximityY * (2/10))
  ⟨overlapXRatio, overlapYRatio, combined⟩

/-- Embeds `shouldGroupStrokes` of `geometry.ts` (threshold default 0.15 at
every call site in the repository).  The `?.timestamp || 0` fallbacks of the
source are the `getLastD`/`headD` defaults. -/
def shouldGroupStrokes (stroke1 stroke2 : Stroke) (threshold : ℚ) : Bool :=
  let overlap := calculateOverlapRatio stroke1.boundingBox stroke2.boundingBox
  let hasOverlap := overlap.overlapX > threshold || overlap.overlapY > threshold
  let centerDistX := |stroke1.boundingBox.centerX - stroke2.boundingBox.centerX|
  let centerDistY := |stroke1.boundingBox.centerY - stroke2.boundingBox.centerY|
  let avgSize :=
    max (max ((stroke1.boundingBox.width + stroke2.boundingBox.width) / 2)
      ((stroke1.boundingBox.height + stroke2.boundingBox.height) / 2)) 30
  let isClose := centerDistX < avgSize * (6/5) && centerDistY < avgSize * (6/5)
  let stroke1LastTime := ((stroke1.points.getLast?).map (·.timestamp)).getD 0
  let stroke2FirstTime := ((stroke2.points.head?).map (·.timestamp)).getD 0
  let timeDiff := |stroke2FirstTime - stroke1LastTime|
  let isQuickSuccession := timeDiff < 1000
  (hasOverlap && isClose) || (isClose && isQuickSuccession)

end Geometry

namespace ExpressionBuilder

open Geometry

/-- Alignment-and-stacking test of `mergeDoubleMinusToEquals` for two glyphs
already known to be recognized as minus signs, in sorted order
(`current`, `next`). -/
def doubleMinusCond (current next : Character) : Bool :=
  let overlapLeft := max current.boundingBox.minX next.boundingBox.minX
  let overlapRight := min current.boundingBox.maxX next.boundingBox.maxX
  let horizontalOverlap := overlapRight - overlapLeft
  let minWidth := min current.boundingBox.width next.boundingBox.width
  let maxWidth := max current.boundingBox.width next.boundingBox.width
  let horizontalCenterDist := |current.boundingBox.centerX - next.boundingBox.centerX|
  let verticalGap := |current.boundingBox.centerY - next.boundingBox.centerY|
  let combinedHeight := current.boundingBox.height + next.boundingBox.height
  let isHorizontallyAligned :=
    horizontalOverlap > minWidth * (2/10) || horizontalCenterDist < maxWidth * (8/10)
  let isVerticallyStacked := verticalGap > 3 && verticalGap < combinedHeight * 6
  isHorizontallyAligned && isVerticallyStacked

/-- The synthetic equals glyph built when two minus glyphs merge: concatenated
strokes, merged box, label `=`, minimum confidence. -/
def mergedEqualsChar (current next : Character) : Character :=
  ⟨current.strokes ++ next.strokes,
    mergeBoundingBoxes [current.boundingBox, next.boundingBox],
    some "=", min current.confidence next.confidence⟩

/-- The while-loop of `mergeDoubleMinusToEquals`: walk the x-sorted glyph list,
merging an adjacent pair of minus glyphs that passes `doubleMinusCond` and
skipping past both, otherwise keeping the head. -/
def mergeDoubleMinusLoop : List Character → List Character
  | [] => []
  | [c] => [c]
  | c1 :: c2 :: rest =>
    if c1.recognized = some "-" && c2.recognized = some "-" && doubleMinusCond c1 c2 then
      mergedEqualsChar c1 c2 :: mergeDoubleMinusLoop rest
    else
      c1 :: mergeDoubleMinusLoop (c2 :: rest)

/-- Embeds `mergeDoubleMinusToEquals` of the unnamed expression-parser file:
sort by horizontal center (a stable sort, as JavaScript's `Array.sort`), then
run the merge loop.  Lists shorter than two glyphs are returned unchanged. -/
def mergeDoubleMinusToEquals (characters : List Character) : List Character :=
  if characters.length < 2 then characters
  else
    mergeDoubleMinusLoop
      (characters.mergeSort
        (fun a b => a.boundingBox.centerX ≤ b.boundingBox.centerX))

end ExpressionBuilder

namespace StrokeGrouping

open Geometry

/-- Embeds the `find` of the union-find in `groupStrokesIntoCharacters`,
including its path compression: out-of-range reads default to the index
itself, the returned array carries the compressed pointers.  The source's
recursion terminates because the parent forest is acyclic; the embedding
makes that explicit with a fuel argument, always called with fuel at least
the array length (sufficient, as shown by `ChainD` below: parent chains
visit pairwise distinct indices). -/
def findC (parent : List ℕ) (i : ℕ) : ℕ → ℕ × List ℕ
  | 0 => (i, parent)
  | fuel + 1 =>
    let p := parent.getD i i
    if p = i then (i, parent)
    else
      let r := findC parent p fuel
      (r.1, r.2.set i r.1)

/-- Embeds `union`: find both roots (the second find runs on the array already
compressed by the first, as in the source) and graft the first root onto the
second when they differ. -/
def union (parent : List ℕ) (i j : ℕ) : List ℕ :=
  let fi := findC parent i parent.length
  let fj := findC fi.2 j fi.2.length
  if fi.1 ≠ fj.1 then fj.2.set fi.1 fj.1 else fj.2

/-- All index pairs `(i, j)` with `i < j < n` in the enumeration order of the
source's double loop. -/
def pairList (n : ℕ) : List (ℕ × ℕ) :=
  (List.range n).flatMap (fun i => ((List.range n).drop (i + 1)).map (fun j => (i, j)))

/-- The grouping threshold: every call of `shouldGroupStrokes` in the
repository uses the default `0.15`. -/
def groupingThreshold : ℚ := 15/100

/-- Runs the pair loop of `groupStrokesIntoCharacters`: union the indices of
every stroke pair accepted by `shouldGroupStrokes`, starting from the
identity parent array. -/
def groupParent (strokes : List Stroke) : List ℕ :=
  (pairList strokes.length).foldl
    (fun parent ij =>
      if shouldGroupStrokes (strokes.getD ij.1 default) (strokes.getD ij.2 default)
          groupingThreshold then
        union parent ij.1 ij.2
      else parent)
    (List.range strokes.length)

/-- Inserts index `i` into the group keyed by root `r`, preserving first-seen
key order — the behavior of the source's insertion-ordered `Map`. -/
def insertGroup (acc : List (ℕ × List ℕ)) (r : ℕ) (i : ℕ) : List (ℕ × List ℕ) :=
  if acc.any (fun g => g.1 = r) then
    acc.map (fun g => if g.1 = r then (g.1, g.2 ++ [i]) else g)
  else acc ++ [(r, [i])]

/-- The collection loop of `groupStrokesIntoCharacters`: find (with
compression) the root of every index in order and bucket the indices by
root. -/
def collectAux : List ℕ → List ℕ → List (ℕ × List ℕ) → List (ℕ × List ℕ) × List ℕ
  | parent, [], acc => (acc, parent)
  | parent, i :: rest, acc =>
    let f := findC parent i parent.length
    collectAux f.2 rest (insertGroup acc f.1 i)

/-- Stroke-index clusters computed by `groupStrokesIntoCharacters`, in the
source's output order. -/
def groupIndices (strokes : List Stroke) : List (List ℕ) :=
  ((collectAux (groupParent strokes) (List.range strokes.length) []).1).map (·.2)

/-- Embeds `groupStrokesIntoCharacters` of `stroke-grouping.ts`. -/
def groupStrokesIntoCharacters (strokes : List Stroke) : List Character :=
  if strokes.length = 0 then []
  else
    (groupIndices strokes).map (fun idxs =>
      let strokeGroup := idxs.map (fun i => strokes.getD i default)
      ⟨strokeGroup, mergeBoundingBoxes (strokeGroup.map (·.boundingBox)), none, 0⟩)

/-- Strokes at positions `i` and `j` end up in the same output character. -/
def inSameCharacter (strokes : List Stroke) (i j : ℕ) : Prop :=
  ∃ l ∈ groupIndices strokes, i ∈ l ∧ j ∈ l

instance (strokes : List Stroke) (i j : ℕ) : Decidable (inSameCharacter strokes i j) := by
  unfold inSameCharacter; infer_instance

/-- The pairwise relation exactly as the source evaluates it: an edge between
positions `i < j` when `shouldGroupStrokes` accepts the pair in that
argument order. -/
def evalEdge (strokes : List Stroke) (i j : ℕ) : Prop :=
  i < j ∧ j < strokes.length ∧
    shouldGroupStrokes (strokes.getD i default) (strokes.getD j default)
      groupingThreshold = true

instance (strokes : List Stroke) (i j : ℕ) : Decidable (evalEdge strokes i j) := by
  unfold evalEdge; infer_instance

/-- Embeds `addStrokeToCharacters` of `stroke-grouping.ts`.  The multi-overlap
branch accumulates merged strokes and surviving characters in the source's
push order. -/
def addStrokeToCharacters (existingCharacters : List Character) (newStroke : Stroke) :
    List Character :=
  let overlappingIndices := (List.range existingCharacters.length).filter
    (fun i => (existingCharacters.getD i default).strokes.any
      (fun st => shouldGroupStrokes st newStroke groupingThreshold))
  if overlappingIndices = [] then
    existingCharacters ++ [⟨[newStroke], newStroke.boundingBox, none, 0⟩]
  else if overlappingIndices.length = 1 then
    let idx := overlappingIndices.headD 0
    existingCharacters.mapIdx (fun i c =>
      if i = idx then
        let newStrokes := c.strokes ++ [newStroke]
        ⟨newStrokes, mergeBoundingBoxes (newStrokes.map (·.boundingBox)), none, 0⟩
      else c)
  else
    let scan := (List.range existingCharacters.length).foldl
      (fun acc i =>
        if i ∈ overlappingIndices then
          (acc.1 ++ (existingCharacters.getD i default).strokes, acc.2)
        else (acc.1, acc.2 ++ [existingCharacters.getD i default]))
      ([newStroke], ([] : List Character))
    scan.2 ++ [⟨scan.1, mergeBoundingBoxes (scan.1.map (·.boundingBox)), none, 0⟩]

/-- Parent-pointer chain of the union-find forest: `ChainD parent i l r` says
that following parent pointers from `i` visits exactly the nodes of `l`
(starting at `i`) and stops at the root `r` (a fixpoint of the parent
array). -/
inductive ChainD (parent : List ℕ) : ℕ → List ℕ → ℕ → Prop where
  | root (r : ℕ) : parent.getD r r = r → ChainD parent r [r] r
  | step (i p : ℕ) (l : List ℕ) (r : ℕ) : parent.getD i i = p → p ≠ i →
      ChainD parent p l r → ChainD parent i (i :: l) r

/-- Node `x` reaches root `r` in the union-find forest. -/
def Rooted (parent : List ℕ) (x r : ℕ) : Prop :=
  ∃ l, ChainD parent x l r

/-- Two nodes share their union-find root. -/
def sameRoot (parent : List ℕ) (x y : ℕ) : Prop :=
  ∃ r, Rooted parent x r ∧ Rooted parent y r

/-- Effect of one path compression along the chain `l` to root `r`: chain
nodes other than the root now point directly at `r`; everything else is
untouched. -/
def CompressedOn (l : List ℕ) (r : ℕ) (parent parent' : List ℕ) : Prop :=
  parent'.length = parent.length ∧
    ∀ x, (x ∈ l ∧ x ≠ r ∧ parent'.getD x x = r) ∨
      (¬(x ∈ l ∧ x ≠ r) ∧ parent'.getD x x = parent.getD x x)

/-- Well-formed union-find state over `n` slots: the parent array has length
`n`, in-range entries stay in range, and every node has a duplicate-free,
in-range parent chain to a root. -/
def UFWf (n : ℕ) (parent : List ℕ) : Prop :=
  parent.length = n ∧ (∀ i, i < n → parent.getD i i < n) ∧
    (∀ i, i < n → ∃ l r, ChainD parent i l r ∧ l.Nodup ∧ ∀ y ∈ l, y < n)

/-- Edge relation accumulated by the pair loop: the pairs of `ps` whose
strokes `shouldGroupStrokes` accepted (in that evaluation order). -/
def edgeOf (strokes : List Stroke) (ps : List (ℕ × ℕ)) (u v : ℕ) : Prop :=
  (u, v) ∈ ps ∧
    shouldGroupStrokes (strokes.getD u default) (strokes.getD v default)
      groupingThreshold = true

/-- Invariant carried through the pair loop: a well-formed forest whose
same-root relation is exactly the equivalence generated by the edges
processed so far. -/
def PairInv (strokes : List Stroke) (done : List (ℕ × ℕ)) (parent : List ℕ) : Prop :=
  UFWf strokes.length parent ∧
    ∀ x y, x < strokes.length → y < strokes.length →
      (sameRoot parent x y ↔ Relation.EqvGen (edgeOf strokes done) x y)

/-- Invariant of the collection loop: the buckets contain exactly the
processed indices, grouped by (current-forest) root, under pairwise distinct
root keys. -/
def CollectInv (parent : List ℕ) (processed : List ℕ)
    (acc : List (ℕ × List ℕ)) : Prop :=
  (∀ g ∈ acc, ∀ x ∈ g.2, x ∈ processed ∧ Rooted parent x g.1) ∧
    (∀ x ∈ processed, ∃ g ∈ acc, x ∈ g.2) ∧
    (acc.map (·.1)).Nodup

end StrokeGrouping

namespace MathSolver

/-- Variable scope of the math-solver module: a finite map from identifier to
numeric value, carried explicitly (the source keeps it in the module-level
`globalScope` object and passes it to every `math.evaluate` call, which
mutates it on assignment). -/
abbrev MathScope := List (String × ℚ)

/-- Looks a variable up in the scope. -/
def scopeGet (s : MathScope) (k : String) : Option ℚ :=
  ((List.find? (fun p => p.1 = k) s).map (·.2))

/-- Writes a variable into the scope (JavaScript object-key update). -/
def scopeSet (s : MathScope) (k : String) (v : ℚ) : MathScope :=
  if (s.map (·.1)).contains k then
    s.map (fun p => if p.1 = k then (k, v) else p)
  else s ++ [(k, v)]

/-- Embeds `clearScope` of the math-solver module. -/
def clearScope : MathScope := []

/-- Digit test for the solver's character classes. -/
def isDigitCh (c : Char) : Bool := '0' ≤ c && c ≤ '9'

/-- ASCII letter test, the `[a-zA-Z]` class of the solver's regexes. -/
def isLetterCh (c : Char) : Bool :=
  ('a' ≤ c && c ≤ 'z') || ('A' ≤ c && c ≤ 'Z')

/-- Whitespace stripped by the solver's `\s+` replacement. -/
def isSpaceCh (c : Char) : Bool :=
  c = ' ' || c = '\t' || c = '\n' || c = '\r'

/-- Operator replacement step of `normalizeExpression`: `×`→`*`, `÷`→`/`,
unicode minus→`-`. -/
def replaceOps (c : Char) : Char :=
  if c = '×' then '*' else if c = '÷' then '/' else if c = '−' then '-' else c

/-- Inserts `*` between a digit followed by a letter, the
`/(\d)([a-zA-Z])/g → $1*$2` pass (a global two-character regex replacement:
since the second character of a match cannot start another match of the same
pattern, the left-to-right scan below produces the identical string). -/
def insertStarDigitLetter : List Char → List Char
  | c1 :: c2 :: rest =>
    if isDigitCh c1 && isLetterCh c2 then c1 :: '*' :: insertStarDigitLetter (c2 :: rest)
    else c1 :: insertStarDigitLetter (c2 :: rest)
  | l => l

/-- Inserts `*` between a letter followed by a digit, the
`/([a-zA-Z])(\d)/g → $1*$2` pass. -/
def insertStarLetterDigit : List Char → List Char
  | c1 :: c2 :: rest =>
    if isLetterCh c1 && isDigitCh c2 then c1 :: '*' :: insertStarLetterDigit (c2 :: rest)
    else c1 :: insertStarLetterDigit (c2 :: rest)
  | l => l

/-- Embeds `normalizeExpression` of the math-solver module on character
lists. -/
def normalizeChars (l : List Char) : List Char :=
  insertStarLetterDigit (insertStarDigitLetter
    ((l.map replaceOps).filter (fun c => !isSpaceCh c)))

/-- Embeds `normalizeExpression` on strings. -/
def normalizeExpression (expr : String) : String :=
  String.mk (normalizeChars expr.data)

/-- Token of the modelled math.js expression language. -/
inductive Tok where
  | num : ℚ → Tok
  | ident : String → Tok
  | plus | minus | times | divide | lparen | rparen | assign : Tok
  deriving DecidableEq, Repr

/-- Parses an unsigned decimal literal: integer digits, then an optional
point with fractional digits.  Returns the value and the rest. -/
def readNumber (l : List Char) : ℚ × List Char :=
  let intDigits := l.takeWhile isDigitCh
  let rest1 := l.dropWhile isDigitCh
  let intVal : ℚ := intDigits.foldl (fun a c => a * 10 + ((c.toNat - '0'.toNat : ℕ) : ℚ)) 0
  match rest1 with
  | '.' :: rest2 =>
    let fracDigits := rest2.takeWhile isDigitCh
    let rest3 := rest2.dropWhile isDigitCh
    let fracVal : ℚ :=
      (fracDigits.foldl (fun a c => a * 10 + ((c.toNat - '0'.toNat : ℕ) : ℚ)) 0) /
        (10 ^ fracDigits.length)
    (intVal + fracVal, rest3)
  | _ => (intVal, rest1)

/-- Tokenizer for the modelled math.js language (`fuel` dominates the input
length; each step consumes at least one character). -/
def tokenizeAux : ℕ → List Char → Except String (List Tok)
  | 0, _ => .error "Tokenizer out of fuel"
  | _, [] => .ok []
  | fuel + 1, c :: rest =>
    if isDigitCh c then
      let r := readNumber (c :: rest)
      (tokenizeAux fuel r.2).map (fun ts => Tok.num r.1 :: ts)
    else if isLetterCh c then
      let name := (c :: rest).takeWhile isLetterCh
      let r := (c :: rest).dropWhile isLetterCh
      (tokenizeAux fuel r).map (fun ts => Tok.ident (String.mk name) :: ts)
    else if c = '+' then (tokenizeAux fuel rest).map (Tok.plus :: ·)
    else if c = '-' then (tokenizeAux fuel rest).map (Tok.minus :: ·)
    else if c = '*' then (tokenizeAux fuel rest).map (Tok.times :: ·)
    else if c = '/' then (tokenizeAux fuel rest).map (Tok.divide :: ·)
    else if c = '(' then (tokenizeAux fuel rest).map (Tok.lparen :: ·)
    else if c = ')' then (tokenizeAux fuel rest).map (Tok.rparen :: ·)
    else if c = '=' then (tokenizeAux fuel rest).map (Tok.assign :: ·)
    else .error ("Unsupported character " ++ String.mk [c])

/-- Tokenizes a whole character list. -/
def tokenize (l : List Char) : Except String (List Tok) :=
  tokenizeAux (l.length + 1) l

/-- Abstract syntax of the modelled math.js arithmetic expressions. -/
inductive MExpr where
  | num : ℚ → MExpr
  | sym : String → MExpr
  | neg : MExpr → MExpr
  | add : MExpr → MExpr → MExpr
  | sub : MExpr → MExpr → MExpr
  | mul : MExpr → MExpr → MExpr
  | divi : MExpr → MExpr → MExpr
  deriving DecidableEq, Repr

mutual

/-- Parses a factor: literal, identifier, unary minus or parenthesized
expression. -/
def parseFactor : ℕ → List Tok → Except String (MExpr × List Tok)
  | 0, _ => .error "Parser out of fuel"
  | _ + 1, Tok.num q :: rest => .ok (MExpr.num q, rest)
  | _ + 1, Tok.ident s :: rest => .ok (MExpr.sym s, rest)
  | fuel + 1, Tok.minus :: rest =>
    (parseFactor fuel rest).map (fun er => (MExpr.neg er.1, er.2))
  | fuel + 1, Tok.lparen :: rest =>
    match parseAdditive fuel rest with
    | .error e => .error e
    | .ok (e, r) =>
      match r with
      | Tok.rparen :: r2 => .ok (e, r2)
      | _ => .error "Parenthesis mismatch"
  | _ + 1, _ => .error "Unexpected token"

/-- Parses the tail of a multiplicative chain. -/
def parseTermRest : ℕ → MExpr → List Tok → Except String (MExpr × List Tok)
  | 0, _, _ => .error "Parser out of fuel"
  | fuel + 1, acc, Tok.times :: rest =>
    match parseFactor fuel rest with
    | .error e => .error e
    | .ok (e, r) => parseTermRest fuel (MExpr.mul acc e) r
  | fuel + 1, acc, Tok.divide :: rest =>
    match parseFactor fuel rest with
    | .error e => .error e
    | .ok (e, r) => parseTermRest fuel (MExpr.divi acc e) r
  | _ + 1, acc, toks => .ok (acc, toks)

/-- Parses a multiplicative chain. -/
def parseTerm : ℕ → List Tok → Except String (MExpr × List Tok)
  | 0, _ => .error "Parser out of fuel"
  | fuel + 1, toks =>
    match parseFactor fuel toks with
    | .error e => .error e
    | .ok (e, r) => parseTermRest fuel e r

/-- Parses the tail of an additive chain. -/
def parseAdditiveRest : ℕ → MExpr → List Tok → Except String (MExpr × List Tok)
  | 0, _, _ => .error "Parser out of fuel"
  | fuel + 1, acc, Tok.plus :: rest =>
    match parseTerm fuel rest with
    | .error e => .error e
    | .ok (e, r) => parseAdditiveRest fuel (MExpr.add acc e) r
  | fuel + 1, acc, Tok.minus :: rest =>
    match parseTerm fuel rest with
    | .error e => .error e
    | .ok (e, r) => parseAdditiveRest fuel (MExpr.sub acc e) r
  | _ + 1, acc, toks => .ok (acc, toks)

/-- Parses an additive chain. -/
def parseAdditive : ℕ → List Tok → Except String (MExpr × List Tok)
  | 0, _ => .error "Parser out of fuel"
  | fuel + 1, toks =>
    match parseTerm fuel toks with
    | .error e => .error e
    | .ok (e, r) => parseAdditiveRest fuel e r

end

/-- Evaluates a parsed expression against a scope.  Division is exact
rational division (the source computes with IEEE doubles, where division by
zero yields Infinity; no modelled claim divides by zero). -/
def evalMExpr (scope : MathScope) : MExpr → Except String ℚ
  | MExpr.num q => .ok q
  | MExpr.sym s =>
    match scopeGet scope s with
    | some v => .ok v
    | none => .error ("Undefined symbol " ++ s)
  | MExpr.neg a => (evalMExpr scope a).map (fun v => -v)
  | MExpr.add a b => do pure ((← evalMExpr scope a) + (← evalMExpr scope b))
  | MExpr.sub a b => do pure ((← evalMExpr scope a) - (← evalMExpr scope b))
  | MExpr.mul a b => do pure ((← evalMExpr scope a) * (← evalMExpr scope b))
  | MExpr.divi a b => do pure ((← evalMExpr scope a) / (← evalMExpr scope b))

/-- Modelled from the external math.js `evaluate(expr, scope)` on the
fragment the repository feeds it: a top-level assignment
`identifier = expression` is evaluated and written into the scope (math.js
mutates the scope object passed to it), anything else is parsed as an
arithmetic expression over `+ - * / ( )`, decimal literals and scope
identifiers.  Returns the value and the (possibly updated) scope. -/
def mathEvaluate (input : List Char) (scope : MathScope) :
    Except String (ℚ × MathScope) :=
  match tokenize input with
  | .error e => .error e
  | .ok toks =>
    match toks with
    | Tok.ident v :: Tok.assign :: rhs =>
      match parseAdditive (4 * rhs.length + 4) rhs with
      | .error e => .error e
      | .ok (e, r) =>
        if r = [] then
          (evalMExpr scope e).map (fun val => (val, scopeSet scope v val))
        else .error "Unexpected trailing input"
    | _ =>
      match parseAdditive (4 * toks.length + 4) toks with
      | .error e => .error e
      | .ok (e, r) =>
        if r = [] then (evalMExpr scope e).map (fun val => (val, scope))
        else .error "Unexpected trailing input"

/-- Classification tags of `ParsedExpression`. -/
inductive ParsedType where
  | assignment | equation | expression | invalid
  deriving DecidableEq, Repr

/-- Embeds the `ParsedExpression` record (the `variable` field is `varName`
here; `expressionStr` is the source's `expression` field). -/
structure ParsedExpression where
  type : ParsedType
  varName : Option String
  value : Option ℚ
  expressionStr : Option String
  error : Option String
  deriving DecidableEq, Repr

/-- Character class `[\d.]` of the assignment guard. -/
def isNumericValueCh (c : Char) : Bool := isDigitCh c || c = '.'

/-- Character class `[\d.+\-*/()]` of the assignment guard. -/
def isValueExprCh (c : Char) : Bool :=
  isDigitCh c || c = '.' || c = '+' || c = '-' || c = '*' || c = '/' ||
    c = '(' || c = ')'

/-- Embeds `parseExpression` of the math-solver module.  The regex
`^([a-zA-Z])=(.+)$` is the pattern match on a leading letter, a `=`, and a
nonempty remainder.  The assignment guard's `math.evaluate(valueExpr,
globalScope)` cannot mutate the scope because the guard's character classes
admit no identifiers, so only the value is kept. -/
def parseExpression (scope : MathScope) (expr : String) : ParsedExpression :=
  let normalized := normalizeChars expr.data
  if normalized.isEmpty then
    ⟨ParsedType.invalid, none, none, none, some "Empty expression"⟩
  else
    let asgn : Option ParsedExpression :=
      match normalized with
      | c :: '=' :: rest =>
        if isLetterCh c && !rest.isEmpty then
          if rest.all isNumericValueCh || rest.all isValueExprCh then
            match mathEvaluate rest scope with
            | .ok v =>
              some ⟨ParsedType.assignment, some (String.mk [c]), some v.1,
                some (String.mk normalized), none⟩
            | .error _ =>
              some ⟨ParsedType.invalid, none, none, none,
                some "Invalid assignment value"⟩
          else none
        else none
      | _ => none
    match asgn with
    | some p => p
    | none =>
      if normalized.getLast? = some '=' then
        ⟨ParsedType.equation, none, none, some (String.mk normalized.dropLast), none⟩
      else
        ⟨ParsedType.expression, none, none, some (String.mk normalized), none⟩

/-- Embeds `EvaluationResult` of the math-solver module. -/
structure EvaluationResult where
  success : Bool
  result : Option String
  numericResult : Option ℚ
  error : Option String
  scopeUpdate : Option (String × ℚ)
  deriving DecidableEq, Repr

/-- Renders a numeric result: an integral value prints as its integer (the
source's `String(value)` and `Number.isInteger` branches agree there, the
only case any claim exercises); a non-integral value is rendered as the
exact fraction, standing in for the source's 10-significant-digit float
formatting. -/
def formatNumber (q : ℚ) : String :=
  if q.den = 1 then toString q.num else toString q

/-- Embeds `evaluateExpression` of the math-solver module, with the global
scope passed and returned explicitly. -/
def evaluateExpression (scope : MathScope) (expr : String) :
    EvaluationResult × MathScope :=
  let parsed := parseExpression scope expr
  match parsed.type with
  | ParsedType.assignment =>
    match parsed.varName, parsed.value with
    | some v, some val =>
      (⟨true, some (formatNumber val), some val, none, some (v, val)⟩,
        scopeSet scope v val)
    | _, _ => (⟨false, none, none, some "Invalid assignment", none⟩, scope)
  | ParsedType.equation =>
    match mathEvaluate (parsed.expressionStr.getD "").data scope with
    | .ok v => (⟨true, some (formatNumber v.1), some v.1, none, none⟩, v.2)
    | .error e => (⟨false, none, none, some e, none⟩, scope)
  | ParsedType.expression =>
    match mathEvaluate (parsed.expressionStr.getD "").data scope with
    | .ok v => (⟨true, some (formatNumber v.1), some v.1, none, none⟩, v.2)
    | .error e => (⟨false, none, none, some e, none⟩, scope)
  | ParsedType.invalid =>
    (⟨false, none, none, some (parsed.error.getD "Invalid expression"), none⟩, scope)

end MathSolver

namespace StrokeUtils

/-- Loop invariant of `findClosestGroupAux`: over the squared distances `ds`
seen so far, `none` means no distance was within the threshold, and
`some (j, c)` means `j` is the first index attaining the minimum distance
`c` among those within the threshold. -/
def closestInv (T : ℚ) (ds : List ℚ) : Option (ℕ × ℚ) → Prop
  | none => ∀ c ∈ ds, ¬ c ≤ T
  | some jc =>
    jc.1 < ds.length ∧ ds.getD jc.1 0 = jc.2 ∧ jc.2 ≤ T ∧
      (∀ m, m < ds.length → ds.getD m 0 ≤ T → jc.2 ≤ ds.getD m 0) ∧
      (∀ m, m < jc.1 → ds.getD m 0 ≤ T → jc.2 < ds.getD m 0)

end StrokeUtils

/-! ## Theorems -/

namespace StrokeUtils

/-- Merge of two boxes is commutative. -/
theorem mergeBoundingBoxes_comm (a b : BBox) :
    mergeBoundingBoxes a b = mergeBoundingBoxes b a := by
  simp [mergeBoundingBoxes, min_comm, max_comm]

/-- Merge of two boxes is associative. -/
theorem mergeBoundingBoxes_assoc (a b c : BBox) :
    mergeBoundingBoxes (mergeBoundingBoxes a b) c
      = mergeBoundingBoxes a (mergeBoundingBoxes b c) := by
  simp [mergeBoundingBoxes, min_assoc, max_assoc]

/-- Merge of a box with itself is the box. -/
theorem mergeBoundingBoxes_self (a : BBox) : mergeBoundingBoxes a a = a := by
  simp [mergeBoundingBoxes]

/-- A list element read through `getD` at an in-range index is a member. -/
theorem getD_mem_of_lt {ds : List ℚ} {m : ℕ} (h : m < ds.length) :
    ds.getD m 0 ∈ ds := by
  rw [List.getD_eq_getElem ds 0 h]
  exact List.getElem_mem h

/-- The search loop of `findClosestGroup` preserves `closestInv`. -/
theorem findClosestGroupAux_inv (sbox : BBox) (T : ℚ) (gs : List StrokeGroup) :
    ∀ (ds : List ℚ) (best : Option (ℕ × ℚ)), closestInv T ds best →
      closestInv T
        (ds ++ gs.map (fun g => boundingBoxDistanceSq sbox g.boundingBox))
        (findClosestGroupAux sbox T gs ds.length best) := by
  induction gs with
  | nil => intro ds best h; simpa [findClosestGroupAux] using h
  | cons g gs ih =>
    intro ds best h
    set d := boundingBoxDistanceSq sbox g.boundingBox with hd
    have hsplit : ds ++ (g :: gs).map (fun g => boundingBoxDistanceSq sbox g.boundingBox)
        = (ds ++ [d]) ++ gs.map (fun g => boundingBoxDistanceSq sbox g.boundingBox) := by
      simp
    have hlen : (ds ++ [d]).length = ds.length + 1 := by simp
    have hgetlt : ∀ m, m < ds.length → (ds ++ [d]).getD m 0 = ds.getD m 0 :=
      fun m hm => List.getD_append ds [d] 0 m hm
    have hgetlast : (ds ++ [d]).getD ds.length 0 = d := by
      rw [List.getD_append_right ds [d] 0 ds.length (le_refl _)]
      simp
    rw [hsplit]
    match best, h with
    | none, h =>
      by_cases hdT : d ≤ T
      · have hstep : findClosestGroupAux sbox T (g :: gs) ds.length none
            = findClosestGroupAux sbox T gs (ds.length + 1) (some (ds.length, d)) := by
          simp only [findClosestGroupAux, ← hd]
          rw [if_pos (by simp [hdT])]
        rw [hstep, ← hlen]
        apply ih
        refine ⟨by simp, hgetlast, hdT, ?_, ?_⟩
        · intro m hm hq
          rcases Nat.lt_succ_iff_lt_or_eq.mp (by simpa using hm) with hm' | hm'
          · rw [hgetlt m hm'] at hq
            exact absurd hq (h _ (getD_mem_of_lt hm'))
          · subst hm'; rw [hgetlast]
        · intro m hm hq
          rw [hgetlt m hm] at hq
          exact absurd hq (h _ (getD_mem_of_lt hm))
      · have hstep : findClosestGroupAux sbox T (g :: gs) ds.length none
            = findClosestGroupAux sbox T gs (ds.length + 1) none := by
          simp only [findClosestGroupAux, ← hd]
          rw [if_neg (by simp [hdT])]
        rw [hstep, ← hlen]
        apply ih
        intro c hc
        rcases List.mem_append.mp hc with hc | hc
        · exact h _ hc
        · simp only [List.mem_singleton] at hc; subst hc; exact hdT
    | some jc, h =>
      by_cases hacc : d ≤ T ∧ d < jc.2
      · have hstep : findClosestGroupAux sbox T (g :: gs) ds.length (some jc)
            = findClosestGroupAux sbox T gs (ds.length + 1) (some (ds.length, d)) := by
          simp only [findClosestGroupAux, ← hd]
          rw [if_pos (by simp [hacc.1, hacc.2])]
        rw [hstep, ← hlen]
        apply ih
        refine ⟨by simp, hgetlast, hacc.1, ?_, ?_⟩
        · intro m hm hq
          rcases Nat.lt_succ_iff_lt_or_eq.mp (by simpa using hm) with hm' | hm'
          · rw [hgetlt m hm'] at hq ⊢
            exact le_of_lt (lt_of_lt_of_le hacc.2 (h.2.2.2.1 m hm' hq))
          · subst hm'; rw [hgetlast]
        · intro m hm hq
          rw [hgetlt m hm] at hq ⊢
          exact lt_of_lt_of_le hacc.2 (h.2.2.2.1 m hm hq)
      · have hstep : findClosestGroupAux sbox T (g :: gs) ds.length (some jc)
            = findClosestGroupAux sbox T gs (ds.length + 1) (some jc) := by
          simp only [findClosestGroupAux, ← hd]
          rw [if_neg (by
            simp only [Bool.and_eq_true, decide_eq_true_eq]
            exact fun hc => hacc ⟨hc.1, hc.2⟩)]
        rw [hstep, ← hlen]
        apply ih
        have hcle : d ≤ T → jc.2 ≤ d := by
          intro hdT
          by_contra hlt
          exact hacc ⟨hdT, lt_of_not_le hlt⟩
        refine ⟨lt_of_lt_of_le h.1 (by simp), ?_, h.2.2.1, ?_, ?_⟩
        · rw [hgetlt jc.1 h.1]; exact h.2.1
        · intro m hm hq
          rcases Nat.lt_succ_iff_lt_or_eq.mp (by simpa using hm) with hm' | hm'
          · rw [hgetlt m hm'] at hq ⊢
            exact h.2.2.2.1 m hm' hq
          · subst hm'; rw [hgetlast] at hq ⊢; exact hcle hq
        · intro m hm hq
          have hm' : m < ds.length := lt_trans hm h.1
          rw [hgetlt m hm'] at hq ⊢
          exact h.2.2.2.2 m hm hq

end StrokeUtils

/-- C6: `findClosestGroup` returns the index of the group whose box has the
minimal distance to the stroke's box provided that minimum is within the
threshold, with the lowest index winning exact ties (strictly smaller
distance is required to displace an earlier candidate); it returns `-1`
exactly when no group is within the threshold, in which case the
v2 `finishDrawing` update appends a fresh singleton group.  Distances are
compared as squares (`boundingBoxDistanceSq`), `T` being the squared
threshold. -/
theorem claim_findClosestGroup_spec (s : StrokeUtils.Stroke)
    (gs : List StrokeUtils.StrokeGroup) (T : ℚ) :
    (StrokeUtils.findClosestGroup s gs T = -1 ↔
      ∀ c ∈ gs.map (fun g => StrokeUtils.boundingBoxDistanceSq s.boundingBox
        g.boundingBox), ¬ c ≤ T) ∧
    (∀ j : ℕ, StrokeUtils.findClosestGroup s gs T = (j : ℤ) →
      j < gs.length ∧
      (gs.map (fun g => StrokeUtils.boundingBoxDistanceSq s.boundingBox
        g.boundingBox)).getD j 0 ≤ T ∧
      (∀ m, m < gs.length →
        (gs.map (fun g => StrokeUtils.boundingBoxDistanceSq s.boundingBox
          g.boundingBox)).getD m 0 ≤ T →
        (gs.map (fun g => StrokeUtils.boundingBoxDistanceSq s.boundingBox
          g.boundingBox)).getD j 0 ≤
        (gs.map (fun g => StrokeUtils.boundingBoxDistanceSq s.boundingBox
          g.boundingBox)).getD m 0) ∧
      (∀ m, m < j →
        (gs.map (fun g => StrokeUtils.boundingBoxDistanceSq s.boundingBox
          g.boundingBox)).getD m 0 ≤ T →
        (gs.map (fun g => StrokeUtils.boundingBoxDistanceSq s.boundingBox
          g.boundingBox)).getD j 0 <
        (gs.map (fun g => StrokeUtils.boundingBoxDistanceSq s.boundingBox
          g.boundingBox)).getD m 0)) ∧
    (StrokeUtils.findClosestGroup s gs T = -1 →
      StrokeUtils.finishDrawingGroups s gs T
        = gs ++ [⟨[s], s.boundingBox⟩]) := by
  have hinv := StrokeUtils.findClosestGroupAux_inv s.boundingBox T gs [] none
    (by intro c hc; simp at hc)
  simp only [List.nil_append, List.length_nil] at hinv
  rcases hr : StrokeUtils.findClosestGroupAux s.boundingBox T gs 0 none with _ | ⟨j0, c0⟩
  · rw [hr] at hinv
    have hfc : StrokeUtils.findClosestGroup s gs T = -1 := by
      simp [StrokeUtils.findClosestGroup, hr]
    refine ⟨⟨fun _ => hinv, fun _ => hfc⟩, ?_, ?_⟩
    · intro j hj
      rw [hfc] at hj
      exact absurd hj (by omega)
    · intro _
      simp only [StrokeUtils.finishDrawingGroups, hfc]
      norm_num
  · rw [hr] at hinv
    have hfc : StrokeUtils.findClosestGroup s gs T = (j0 : ℤ) := by
      simp [StrokeUtils.findClosestGroup, hr]
    refine ⟨?_, ?_, ?_⟩
    · constructor
      · intro h1
        rw [hfc] at h1
        exact absurd h1 (by omega)
      · intro hall
        exact absurd hinv.2.2.1 (by
          rw [← hinv.2.1]
          exact hall _ (StrokeUtils.getD_mem_of_lt hinv.1))
    · intro j hj
      rw [hfc] at hj
      have hj1 : j0 = j := by exact_mod_cast hj
      subst hj1
      have hlenmap : (gs.map (fun g => StrokeUtils.boundingBoxDistanceSq
          s.boundingBox g.boundingBox)).length = gs.length := by simp
      refine ⟨by rw [← hlenmap]; exact hinv.1, ?_, ?_, ?_⟩
      · rw [hinv.2.1]; exact hinv.2.2.1
      · intro m hm hq
        rw [hinv.2.1]
        exact hinv.2.2.2.1 m (by rw [hlenmap]; exact hm) hq
      · intro m hm hq
        rw [hinv.2.1]
        exact hinv.2.2.2.2 m hm hq
    · intro h1
      rw [hfc] at h1
      exact absurd h1 (by omega)

/-- Witness for C6: a stroke near one of two groups picks the closer group
(index 1), and with an empty group list the search reports `-1` and the
update appends a singleton group. -/
theorem claim_findClosestGroup_spec_witness :
    StrokeUtils.findClosestGroup ⟨[], ⟨0, 0, 10, 10⟩, 0⟩
      [⟨[], ⟨100, 100, 110, 110⟩⟩, ⟨[], ⟨20, 20, 30, 30⟩⟩] 2500 = (1 : ℤ) ∧
    (1 : ℕ) < 2 ∧
    StrokeUtils.finishDrawingGroups ⟨[], ⟨0, 0, 10, 10⟩, 0⟩ [] 2500
      = [⟨[⟨[], ⟨0, 0, 10, 10⟩, 0⟩], ⟨0, 0, 10, 10⟩⟩] := by
  refine ⟨of_decide_eq_true (by with_unfolding_all rfl), ?_, ?_⟩
  · exact ((claim_findClosestGroup_spec ⟨[], ⟨0, 0, 10, 10⟩, 0⟩
      [⟨[], ⟨100, 100, 110, 110⟩⟩, ⟨[], ⟨20, 20, 30, 30⟩⟩] 2500).2.1 1
      (of_decide_eq_true (by with_unfolding_all rfl))).1
  · exact (claim_findClosestGroup_spec ⟨[], ⟨0, 0, 10, 10⟩, 0⟩ [] 2500).2.2
      (of_decide_eq_true (by with_unfolding_all rfl))

namespace Geometry

/-- List merge of two boxes is commutative in all eight fields. -/
theorem mergeBoundingBoxes_pair_comm (p q : BoundingBox) :
    mergeBoundingBoxes [p, q] = mergeBoundingBoxes [q, p] := by
  simp [mergeBoundingBoxes, min_comm, max_comm]

/-- List merge of a pair with a third box associates in all eight fields. -/
theorem mergeBoundingBoxes_pair_assoc (p q r : BoundingBox) :
    mergeBoundingBoxes [mergeBoundingBoxes [p, q], r]
      = mergeBoundingBoxes [p, mergeBoundingBoxes [q, r]] := by
  simp [mergeBoundingBoxes, min_assoc, max_assoc]

/-- List self-merge reproduces a box whose derived fields satisfy the data
model invariant. -/
theorem mergeBoundingBoxes_pair_self (p : BoundingBox) (hp : p.Wf) :
    mergeBoundingBoxes [p, p] = p := by
  obtain ⟨hw, hh, hcx, hcy⟩ := hp
  cases p
  simp_all [mergeBoundingBoxes, BoundingBox.Wf]

end Geometry

/-- C9: bounding-box merge is commutative and associative, and self-merge is
the identity — unconditionally for the four-field merge of
`stroke-utils.ts`, and for the list merge of `geometry.ts` (whose output
carries recomputed width/height/center fields) with self-merge identity on
boxes satisfying the data model's derived-field invariant `Wf`, which every
box built by the repository's constructors satisfies. -/
theorem claim_merge_algebra :
    (∀ a b c : StrokeUtils.BBox,
      StrokeUtils.mergeBoundingBoxes a b = StrokeUtils.mergeBoundingBoxes b a ∧
      StrokeUtils.mergeBoundingBoxes (StrokeUtils.mergeBoundingBoxes a b) c
        = StrokeUtils.mergeBoundingBoxes a (StrokeUtils.mergeBoundingBoxes b c) ∧
      StrokeUtils.mergeBoundingBoxes a a = a) ∧
    (∀ p q r : Geometry.BoundingBox,
      Geometry.mergeBoundingBoxes [p, q] = Geometry.mergeBoundingBoxes [q, p] ∧
      Geometry.mergeBoundingBoxes [Geometry.mergeBoundingBoxes [p, q], r]
        = Geometry.mergeBoundingBoxes [p, Geometry.mergeBoundingBoxes [q, r]] ∧
      (p.Wf → Geometry.mergeBoundingBoxes [p, p] = p)) :=
  ⟨fun a b c =>
    ⟨StrokeUtils.mergeBoundingBoxes_comm a b,
      StrokeUtils.mergeBoundingBoxes_assoc a b c,
      StrokeUtils.mergeBoundingBoxes_self a⟩,
   fun p q r =>
    ⟨Geometry.mergeBoundingBoxes_pair_comm p q,
      Geometry.mergeBoundingBoxes_pair_assoc p q r,
      Geometry.mergeBoundingBoxes_pair_self p⟩⟩

/-- Witness for C9 at concrete boxes, discharging the `Wf` hypothesis. -/
theorem claim_merge_algebra_witness :
    Geometry.BoundingBox.Wf ⟨0, 0, 4, 2, 4, 2, 2, 1⟩ ∧
    Geometry.mergeBoundingBoxes [⟨0, 0, 4, 2, 4, 2, 2, 1⟩, ⟨0, 0, 4, 2, 4, 2, 2, 1⟩]
      = ⟨0, 0, 4, 2, 4, 2, 2, 1⟩ :=
  ⟨of_decide_eq_true (by with_unfolding_all rfl),
    (claim_merge_algebra.2 ⟨0, 0, 4, 2, 4, 2, 2, 1⟩ ⟨0, 0, 4, 2, 4, 2, 2, 1⟩
      ⟨0, 0, 4, 2, 4, 2, 2, 1⟩).2.2 (of_decide_eq_true (by with_unfolding_all rfl))⟩

namespace CharacterGrouper

/-- The oversize conditions alone force `shouldStartNewCharacter` to report a
new character, regardless of the timing and distance checks before them. -/
theorem shouldStartNewCharacter_of_size (S : StrokeUtils.Stroke)
    (C : CharacterCandidate) (config : Config)
    (hsize :
      (StrokeUtils.mergeBoundingBoxes S.boundingBox C.boundingBox).maxX -
          (StrokeUtils.mergeBoundingBoxes S.boundingBox C.boundingBox).minX >
          ((StrokeUtils.mergeBoundingBoxes S.boundingBox C.boundingBox).maxY -
            (StrokeUtils.mergeBoundingBoxes S.boundingBox C.boundingBox).minY) *
            config.maxAspectRatio ∧
        (StrokeUtils.mergeBoundingBoxes S.boundingBox C.boundingBox).maxX -
          (StrokeUtils.mergeBoundingBoxes S.boundingBox C.boundingBox).minX >
          config.maxCharSize ∨
      (StrokeUtils.mergeBoundingBoxes S.boundingBox C.boundingBox).maxX -
          (StrokeUtils.mergeBoundingBoxes S.boundingBox C.boundingBox).minX >
          config.maxCharSize ∧
        (StrokeUtils.mergeBoundingBoxes S.boundingBox C.boundingBox).maxY -
          (StrokeUtils.mergeBoundingBoxes S.boundingBox C.boundingBox).minY >
          config.maxCharSize) :
    shouldStartNewCharacter S (some C) config = true := by
  simp only [shouldStartNewCharacter]
  split_ifs with h1 h2 h3 h4 h5 <;> try rfl
  exfalso
  simp only [Bool.and_eq_true, decide_eq_true_eq] at h4 h5
  rcases hsize with hs | hs
  · exact h4 ⟨hs.1, hs.2⟩
  · exact h5 ⟨hs.1, hs.2⟩

end CharacterGrouper

/-- C8: when the merged bounding box of stroke `S` and the active candidate
`C` would exceed the max aspect ratio together with the max absolute size,
or exceed the max absolute size on both axes, `shouldStartNewCharacter`
answers `true` and `addStroke` finalizes `C` (marking it complete and
appending it to the finished characters) and starts a fresh candidate
containing only `S` — it never absorbs `S` into `C`. -/
theorem claim_size_guard_starts_new_character (S : StrokeUtils.Stroke)
    (C : CharacterGrouper.CharacterCandidate) (st : CharacterGrouper.GrouperState)
    (hcur : st.currentCharacter = some C) (hne : C.strokes ≠ [])
    (hsize :
      (StrokeUtils.mergeBoundingBoxes S.boundingBox C.boundingBox).maxX -
          (StrokeUtils.mergeBoundingBoxes S.boundingBox C.boundingBox).minX >
          ((StrokeUtils.mergeBoundingBoxes S.boundingBox C.boundingBox).maxY -
            (StrokeUtils.mergeBoundingBoxes S.boundingBox C.boundingBox).minY) *
            CharacterGrouper.CHARACTER_CONFIG.maxAspectRatio ∧
        (StrokeUtils.mergeBoundingBoxes S.boundingBox C.boundingBox).maxX -
          (StrokeUtils.mergeBoundingBoxes S.boundingBox C.boundingBox).minX >
          CharacterGrouper.CHARACTER_CONFIG.maxCharSize ∨
      (StrokeUtils.mergeBoundingBoxes S.boundingBox C.boundingBox).maxX -
          (StrokeUtils.mergeBoundingBoxes S.boundingBox C.boundingBox).minX >
          CharacterGrouper.CHARACTER_CONFIG.maxCharSize ∧
        (StrokeUtils.mergeBoundingBoxes S.boundingBox C.boundingBox).maxY -
          (StrokeUtils.mergeBoundingBoxes S.boundingBox C.boundingBox).minY >
          CharacterGrouper.CHARACTER_CONFIG.maxCharSize) :
    CharacterGrouper.shouldStartNewCharacter S (some C)
        CharacterGrouper.CHARACTER_CONFIG = true ∧
    (CharacterGrouper.addStroke st S).currentCharacter
      = some ⟨st.nextId, [S], S.boundingBox, S.timestamp, false, none, none⟩ ∧
    (CharacterGrouper.addStroke st S).characters
      = st.characters ++ [{ C with isComplete := true }] := by
  have hnew := CharacterGrouper.shouldStartNewCharacter_of_size S C
    CharacterGrouper.CHARACTER_CONFIG hsize
  have hfin : CharacterGrouper.finalizeCurrentCharacter st =
      { st with
        characters := st.characters ++ [{ C with isComplete := true }],
        currentCharacter := none } := by
    simp only [CharacterGrouper.finalizeCurrentCharacter, hcur]
    rw [if_pos (by simpa using hne)]
  have hadd : CharacterGrouper.addStroke st S =
      { characters := st.characters ++ [{ C with isComplete := true }],
        currentCharacter := some
          ⟨st.nextId, [S], S.boundingBox, S.timestamp, false, none, none⟩,
        nextId := st.nextId + 1 } := by
    simp only [CharacterGrouper.addStroke, hcur, hnew, if_true, hfin]
  exact ⟨hnew, by rw [hadd], by rw [hadd]⟩

/-- Witness for C8: a wide stroke next to a square candidate (merged box
300 by 100) exceeds the aspect-and-size thresholds, so the candidate is
finalized and the new candidate holds only the stroke. -/
theorem claim_size_guard_starts_new_character_witness :
    CharacterGrouper.shouldStartNewCharacter ⟨[], ⟨140, 0, 300, 30⟩, 50⟩
        (some ⟨3, [⟨[], ⟨0, 0, 100, 100⟩, 0⟩], ⟨0, 0, 100, 100⟩, 0, false, none, none⟩)
        CharacterGrouper.CHARACTER_CONFIG = true ∧
    (CharacterGrouper.addStroke
        ⟨[], some ⟨3, [⟨[], ⟨0, 0, 100, 100⟩, 0⟩], ⟨0, 0, 100, 100⟩, 0, false, none, none⟩, 7⟩
        ⟨[], ⟨140, 0, 300, 30⟩, 50⟩).currentCharacter
      = some ⟨7, [⟨[], ⟨140, 0, 300, 30⟩, 50⟩], ⟨140, 0, 300, 30⟩, 50, false, none, none⟩ ∧
    (CharacterGrouper.addStroke
        ⟨[], some ⟨3, [⟨[], ⟨0, 0, 100, 100⟩, 0⟩], ⟨0, 0, 100, 100⟩, 0, false, none, none⟩, 7⟩
        ⟨[], ⟨140, 0, 300, 30⟩, 50⟩).characters
      = [⟨3, [⟨[], ⟨0, 0, 100, 100⟩, 0⟩], ⟨0, 0, 100, 100⟩, 0, true, none, none⟩] :=
  claim_size_guard_starts_new_character ⟨[], ⟨140, 0, 300, 30⟩, 50⟩
    ⟨3, [⟨[], ⟨0, 0, 100, 100⟩, 0⟩], ⟨0, 0, 100, 100⟩, 0, false, none, none⟩
    ⟨[], some ⟨3, [⟨[], ⟨0, 0, 100, 100⟩, 0⟩], ⟨0, 0, 100, 100⟩, 0, false, none, none⟩, 7⟩
    rfl (by simp) (Or.inl ⟨of_decide_eq_true (by with_unfolding_all rfl),
      of_decide_eq_true (by with_unfolding_all rfl)⟩)

/-- Counterexample to C7: two glyphs recognized as `-`, stacked with full-width
horizontal overlap (well above 50 percent) and a vertical gap of 10 px
(between 5 and 40), are NOT merged — their boxes are degenerate (height 0,
as a perfectly horizontal stroke produces), so the code's stacking test
`verticalGap < combinedHeight * 6` fails and both glyphs survive. -/
theorem claim_double_minus_merge_counterexample :
    ExpressionBuilder.mergeDoubleMinusToEquals
        [⟨[], ⟨0, 0, 10, 0, 10, 0, 5, 0⟩, some "-", 9/10⟩,
         ⟨[], ⟨1, 10, 11, 10, 10, 0, 6, 10⟩, some "-", 8/10⟩]
      = [⟨[], ⟨0, 0, 10, 0, 10, 0, 5, 0⟩, some "-", 9/10⟩,
         ⟨[], ⟨1, 10, 11, 10, 10, 0, 6, 10⟩, some "-", 8/10⟩] ∧
    min (10 : ℚ) 11 - max 0 1 ≥ (1/2) * min 10 10 ∧
    (5 : ℚ) < 10 - 0 ∧ (10 : ℚ) - 0 < 40 :=
  ⟨of_decide_eq_true (by with_unfolding_all rfl),
    of_decide_eq_true (by with_unfolding_all rfl),
    of_decide_eq_true (by with_unfolding_all rfl),
    of_decide_eq_true (by with_unfolding_all rfl)⟩

/-- C7 as amended: in a line of two glyphs both recognized as `-` (taken with
the first one left of or level with the second by horizontal center), the
merge pass replaces the pair by a single glyph recognized as `=` — whose box
is the merge of the two boxes and whose confidence is the minimum of the two
— exactly when they are horizontally aligned (overlap above 20 percent of
the narrower width, or centers within 80 percent of the wider width) and
vertically stacked (center distance above 3 px and below 6 times the
combined height). -/
theorem claim_double_minus_merge_amended (a b : Geometry.Character)
    (hx : a.boundingBox.centerX ≤ b.boundingBox.centerX)
    (ha : a.recognized = some "-") (hb : b.recognized = some "-")
    (haligned :
      min a.boundingBox.maxX b.boundingBox.maxX -
          max a.boundingBox.minX b.boundingBox.minX >
          min a.boundingBox.width b.boundingBox.width * (2/10) ∨
      |a.boundingBox.centerX - b.boundingBox.centerX| <
          max a.boundingBox.width b.boundingBox.width * (8/10))
    (hstacked :
      3 < |a.boundingBox.centerY - b.boundingBox.centerY| ∧
      |a.boundingBox.centerY - b.boundingBox.centerY| <
        (a.boundingBox.height + b.boundingBox.height) * 6) :
    ExpressionBuilder.mergeDoubleMinusToEquals [a, b]
      = [⟨a.strokes ++ b.strokes,
          Geometry.mergeBoundingBoxes [a.boundingBox, b.boundingBox],
          some "=", min a.confidence b.confidence⟩] := by
  have hcond : ExpressionBuilder.doubleMinusCond a b = true := by
    simp only [ExpressionBuilder.doubleMinusCond, Bool.and_eq_true, Bool.or_eq_true,
      decide_eq_true_eq]
    refine ⟨?_, hstacked.1, hstacked.2⟩
    rcases haligned with h | h
    · exact Or.inl h
    · exact Or.inr h
  have hsort : List.mergeSort [a, b]
      (fun p q => p.boundingBox.centerX ≤ q.boundingBox.centerX) = [a, b] := by
    simp [List.mergeSort, hx]
  simp only [ExpressionBuilder.mergeDoubleMinusToEquals]
  rw [if_neg (by simp)]
  rw [hsort]
  simp only [ExpressionBuilder.mergeDoubleMinusLoop, ha, hb, hcond,
    ExpressionBuilder.mergedEqualsChar]
  simp

/-- Witness for C7's amended claim: two stacked height-2 minus glyphs with
full overlap and center gap 8 merge into one equals glyph. -/
theorem claim_double_minus_merge_amended_witness :
    ExpressionBuilder.mergeDoubleMinusToEquals
        [⟨[], ⟨0, 0, 10, 2, 10, 2, 5, 1⟩, some "-", 9/10⟩,
         ⟨[], ⟨0, 8, 10, 10, 10, 2, 5, 9⟩, some "-", 8/10⟩]
      = [⟨([] : List Geometry.Stroke) ++ [],
          Geometry.mergeBoundingBoxes
            [⟨0, 0, 10, 2, 10, 2, 5, 1⟩, ⟨0, 8, 10, 10, 10, 2, 5, 9⟩],
          some "=", min (9/10) (8/10)⟩] :=
  claim_double_minus_merge_amended
    ⟨[], ⟨0, 0, 10, 2, 10, 2, 5, 1⟩, some "-", 9/10⟩
    ⟨[], ⟨0, 8, 10, 10, 10, 2, 5, 9⟩, some "-", 8/10⟩
    (of_decide_eq_true (by with_unfolding_all rfl)) rfl rfl
    (Or.inl (of_decide_eq_true (by with_unfolding_all rfl)))
    ⟨of_decide_eq_true (by with_unfolding_all rfl),
      of_decide_eq_true (by with_unfolding_all rfl)⟩

namespace StrokeGrouping

open Geometry

/-- Folding over the index range, reading elements through `getD`, equals
folding over the list itself. -/
theorem foldl_range_getD {α β : Type} [Inhabited α] (l : List α) (f : β → α → β) :
    ∀ b : β, (List.range l.length).foldl (fun acc i => f acc (l.getD i default)) b
      = l.foldl f b := by
  induction l with
  | nil => intro b; rfl
  | cons x xs ih =>
    intro b
    rw [List.length_cons, List.range_succ_eq_map, List.foldl_cons, List.foldl_map]
    simp only [List.getD_cons_zero, List.getD_cons_succ]
    exact ih (f b x)

/-- Filtering the index range by a predicate read through `getD` yields as
many indices as filtering the list yields elements. -/
theorem length_filter_range_getD {α : Type} [Inhabited α] (l : List α) (p : α → Bool) :
    ((List.range l.length).filter (fun i => p (l.getD i default))).length
      = (l.filter p).length := by
  induction l with
  | nil => rfl
  | cons x xs ih =>
    rw [List.length_cons, List.range_succ_eq_map]
    rw [List.filter_cons, List.filter_cons, List.filter_map]
    have hcomp : ((fun i => p ((x :: xs).getD i default)) ∘ Nat.succ)
        = fun i => p (xs.getD i default) := by
      funext i
      simp
    rw [List.getD_cons_zero, hcomp]
    by_cases hp : p x = true
    · rw [if_pos hp, if_pos hp]
      simp only [List.length_cons, List.length_map]
      rw [ih]
    · rw [if_neg hp, if_neg hp]
      simp only [List.length_map]
      rw [ih]

/-- The accumulator fold of the multi-overlap branch partitions the
characters: matched strokes are concatenated, unmatched characters kept. -/
theorem foldl_partition (p : Character → Bool) (chars : List Character) :
    ∀ (s0 : List Stroke) (c0 : List Character),
      chars.foldl (fun acc c =>
        if p c then (acc.1 ++ c.strokes, acc.2) else (acc.1, acc.2 ++ [c])) (s0, c0)
      = (s0 ++ (chars.filter p).flatMap (fun c => c.strokes),
         c0 ++ chars.filter (fun c => !p c)) := by
  induction chars with
  | nil => intro s0 c0; simp
  | cons c cs ih =>
    intro s0 c0
    rw [List.foldl_cons]
    cases hp : p c <;> simp [hp, ih, List.filter_cons]

end StrokeGrouping

/-- C10: when the new stroke matches strokes in two or more existing
characters, `addStrokeToCharacters` merges all of those characters together
with the new stroke into one character at the end of the list — with the
recognition label reset to `null` and confidence `0` — while every
unmatched character is returned unchanged, in order. -/
theorem claim_add_stroke_multi_merge (chars : List Geometry.Character)
    (s : Geometry.Stroke)
    (h2 : 2 ≤ (chars.filter (fun c => c.strokes.any
      (fun st => Geometry.shouldGroupStrokes st s
        StrokeGrouping.groupingThreshold))).length) :
    StrokeGrouping.addStrokeToCharacters chars s
      = chars.filter (fun c => !(c.strokes.any
          (fun st => Geometry.shouldGroupStrokes st s
            StrokeGrouping.groupingThreshold)))
        ++ [⟨s :: (chars.filter (fun c => c.strokes.any
              (fun st => Geometry.shouldGroupStrokes st s
                StrokeGrouping.groupingThreshold))).flatMap (fun c => c.strokes),
            Geometry.mergeBoundingBoxes
              ((s :: (chars.filter (fun c => c.strokes.any
                (fun st => Geometry.shouldGroupStrokes st s
                  StrokeGrouping.groupingThreshold))).flatMap
                  (fun c => c.strokes)).map (fun st => st.boundingBox)),
            none, 0⟩] := by
  simp only [StrokeGrouping.addStrokeToCharacters]
  set p : Geometry.Character → Bool := fun c => c.strokes.any
    (fun st => Geometry.shouldGroupStrokes st s StrokeGrouping.groupingThreshold)
    with hp
  set oi := (List.range chars.length).filter (fun i => p (chars.getD i default))
    with hoi
  have hlen : oi.length = (chars.filter p).length :=
    StrokeGrouping.length_filter_range_getD chars p
  have hne : ¬ oi = [] := by
    intro h0
    rw [h0] at hlen
    simp at hlen
    omega
  have hne1 : ¬ oi.length = 1 := by omega
  rw [if_neg hne, if_neg hne1]
  have hext : (List.range chars.length).foldl
      (fun acc i => if i ∈ oi then (acc.1 ++ (chars.getD i default).strokes, acc.2)
        else (acc.1, acc.2 ++ [chars.getD i default])) ([s], ([] : List Geometry.Character))
      = (List.range chars.length).foldl
      (fun acc i => if p (chars.getD i default)
        then (acc.1 ++ (chars.getD i default).strokes, acc.2)
        else (acc.1, acc.2 ++ [chars.getD i default])) ([s], ([] : List Geometry.Character)) := by
    apply List.foldl_ext
    intro acc i hi
    rw [List.mem_range] at hi
    by_cases hq : p (chars.getD i default) = true
    · rw [if_pos hq, if_pos (by
        rw [hoi]
        simp only [List.mem_filter, List.mem_range]
        exact ⟨hi, hq⟩)]
    · rw [if_neg hq, if_neg (by
        rw [hoi]
        simp only [List.mem_filter, List.mem_range]
        exact fun hc => hq hc.2)]
  rw [hext, StrokeGrouping.foldl_range_getD chars
    (fun acc c => if p c then (acc.1 ++ c.strokes, acc.2) else (acc.1, acc.2 ++ [c]))
    ([s], ([] : List Geometry.Character)),
    StrokeGrouping.foldl_partition p chars [s] []]
  simp

/-- Witness for C10: a stroke bridging two existing characters merges both
into a single character. -/
theorem claim_add_stroke_multi_merge_witness :
    2 ≤ (([⟨[⟨[], ⟨0, 0, 10, 10, 10, 10, 5, 5⟩⟩], ⟨0, 0, 10, 10, 10, 10, 5, 5⟩, some "1", 1⟩,
           ⟨[⟨[], ⟨8, 8, 18, 18, 10, 10, 13, 13⟩⟩], ⟨8, 8, 18, 18, 10, 10, 13, 13⟩, none, 0⟩]
          : List Geometry.Character).filter
        (fun c => c.strokes.any (fun st => Geometry.shouldGroupStrokes st
          ⟨[], ⟨5, 5, 13, 13, 8, 8, 9, 9⟩⟩ StrokeGrouping.groupingThreshold))).length ∧
    (StrokeGrouping.addStrokeToCharacters
        [⟨[⟨[], ⟨0, 0, 10, 10, 10, 10, 5, 5⟩⟩], ⟨0, 0, 10, 10, 10, 10, 5, 5⟩, some "1", 1⟩,
         ⟨[⟨[], ⟨8, 8, 18, 18, 10, 10, 13, 13⟩⟩], ⟨8, 8, 18, 18, 10, 10, 13, 13⟩, none, 0⟩]
        ⟨[], ⟨5, 5, 13, 13, 8, 8, 9, 9⟩⟩).length = 1 := by
  have h2 : 2 ≤ (([⟨[⟨[], ⟨0, 0, 10, 10, 10, 10, 5, 5⟩⟩], ⟨0, 0, 10, 10, 10, 10, 5, 5⟩, some "1", 1⟩,
           ⟨[⟨[], ⟨8, 8, 18, 18, 10, 10, 13, 13⟩⟩], ⟨8, 8, 18, 18, 10, 10, 13, 13⟩, none, 0⟩]
          : List Geometry.Character).filter
        (fun c => c.strokes.any (fun st => Geometry.shouldGroupStrokes st
          ⟨[], ⟨5, 5, 13, 13, 8, 8, 9, 9⟩⟩ StrokeGrouping.groupingThreshold))).length :=
    of_decide_eq_true (by with_unfolding_all rfl)
  refine ⟨h2, ?_⟩
  rw [claim_add_stroke_multi_merge _ _ h2]
  with_unfolding_all rfl

namespace StrokeGrouping

open Geometry

/-- The end of a parent chain is a fixpoint of the parent array. -/
theorem chain_root_fix {parent : List ℕ} {i : ℕ} {l : List ℕ} {r : ℕ}
    (h : ChainD parent i l r) : parent.getD r r = r := by
  induction h with
  | root r hr => exact hr
  | step i p l r hp hne hc ih => exact ih

/-- A parent chain starts at its source node. -/
theorem chain_head {parent : List ℕ} {i : ℕ} {l : List ℕ} {r : ℕ}
    (h : ChainD parent i l r) : ∃ t, l = i :: t := by
  cases h with
  | root r hr => exact ⟨[], rfl⟩
  | step i p l r hp hne hc => exact ⟨_, rfl⟩

/-- Parent chains are unique: same source, same chain and same root. -/
theorem chain_unique {parent : List ℕ} {i : ℕ} {l : List ℕ} {r : ℕ}
    (h1 : ChainD parent i l r) :
    ∀ {l' : List ℕ} {r' : ℕ}, ChainD parent i l' r' → l = l' ∧ r = r' := by
  induction h1 with
  | root r hr =>
    intro l' r' h2
    cases h2 with
    | root => exact ⟨rfl, rfl⟩
    | step i p l2 r2 hp hne hc =>
      rw [hr] at hp
      exact absurd hp.symm hne
  | step i p l r hp hne hc ih =>
    intro l' r' h2
    cases h2 with
    | root r hr =>
      rw [hr] at hp
      exact absurd hp.symm hne
    | step i p2 lb rb hp2 hne2 hc2 =>
      rw [hp] at hp2
      subst hp2
      obtain ⟨hl, hr⟩ := ih hc2
      exact ⟨by rw [hl], hr⟩

/-- A node reaches exactly one root. -/
theorem rooted_unique {parent : List ℕ} {x r₁ r₂ : ℕ}
    (h1 : Rooted parent x r₁) (h2 : Rooted parent x r₂) : r₁ = r₂ := by
  obtain ⟨l1, hc1⟩ := h1
  obtain ⟨l2, hc2⟩ := h2
  exact (chain_unique hc1 hc2).2

/-- The root lies on its chain. -/
theorem chain_mem_last {parent : List ℕ} {i : ℕ} {l : List ℕ} {r : ℕ}
    (h : ChainD parent i l r) : r ∈ l := by
  induction h with
  | root r hr => exact List.mem_singleton.mpr rfl
  | step i p l r hp hne hc ih => exact List.mem_cons_of_mem _ ih

/-- Every node on a chain reaches the same root. -/
theorem chain_mem_rooted {parent : List ℕ} {i : ℕ} {l : List ℕ} {r : ℕ}
    (h : ChainD parent i l r) : ∀ y ∈ l, Rooted parent y r := by
  induction h with
  | root r hr =>
    intro y hy
    rw [List.mem_singleton] at hy
    subst hy
    exact ⟨[y], ChainD.root y hr⟩
  | step i p l r hp hne hc ih =>
    intro y hy
    rcases List.mem_cons.mp hy with hy | hy
    · subst hy
      exact ⟨_, ChainD.step y p _ _ hp hne hc⟩
    · exact ih y hy

/-- A root reaches itself. -/
theorem chain_root_self {parent : List ℕ} {i : ℕ} {l : List ℕ} {r : ℕ}
    (h : ChainD parent i l r) : Rooted parent r r :=
  ⟨[r], ChainD.root r (chain_root_fix h)⟩

/-- A duplicate-free list of naturals below `n` has at most `n` elements. -/
theorem nodup_lt_length_le {l : List ℕ} {n : ℕ} (hnd : l.Nodup)
    (hlt : ∀ y ∈ l, y < n) : l.length ≤ n := by
  have hsub : l.toFinset ⊆ Finset.range n := fun y hy =>
    Finset.mem_range.mpr (hlt y (List.mem_toFinset.mp hy))
  have hcard := Finset.card_le_card hsub
  rw [List.toFinset_card_of_nodup hnd] at hcard
  simpa using hcard

/-- Reading a just-written slot. -/
theorem getD_set_self {l : List ℕ} {i v d : ℕ} (h : i < l.length) :
    (l.set i v).getD i d = v := by
  simp [List.getD_eq_getElem?_getD, List.getElem?_set_self, h]

/-- Reading any other slot after a write. -/
theorem getD_set_other {l : List ℕ} {i j v d : ℕ} (h : i ≠ j) :
    (l.set i v).getD j d = l.getD j d := by
  simp [List.getD_eq_getElem?_getD, List.getElem?_set_ne, h]

/-- Membership in a dropped range. -/
theorem mem_drop_range {n m j : ℕ} : j ∈ (List.range n).drop m ↔ m ≤ j ∧ j < n := by
  rw [List.mem_drop_iff_getElem]
  constructor
  · rintro ⟨k, hk, he⟩
    rw [List.getElem_range] at he
    rw [List.length_range] at hk
    omega
  · rintro ⟨hmj, hjn⟩
    refine ⟨j - m, ?_, ?_⟩
    · rw [List.length_range]; omega
    · rw [List.getElem_range]; omega

/-- The pair loop enumerates exactly the index pairs `u < v < n`. -/
theorem mem_pairList {n u v : ℕ} : (u, v) ∈ pairList n ↔ u < v ∧ v < n := by
  simp only [pairList, List.mem_flatMap, List.mem_map, List.mem_range]
  constructor
  · rintro ⟨i, hi, j, hj, he⟩
    obtain ⟨h1, h2⟩ := Prod.mk.injEq .. ▸ he
    obtain ⟨hmj, hjn⟩ := mem_drop_range.mp hj
    subst h1; subst h2
    omega
  · rintro ⟨huv, hvn⟩
    exact ⟨u, by omega, v, mem_drop_range.mpr ⟨by omega, hvn⟩, rfl⟩

/-- `findC` with enough fuel returns the chain's root and performs exactly
the compression described by `CompressedOn`. -/
theorem findC_spec {parent : List ℕ} :
    ∀ {i : ℕ} {l : List ℕ} {r : ℕ}, ChainD parent i l r →
      (∀ y ∈ l, y < parent.length) →
      ∀ fuel, l.length ≤ fuel →
        (findC parent i fuel).1 = r ∧
          CompressedOn l r parent (findC parent i fuel).2 := by
  intro i l r hc
  induction hc with
  | root r hr =>
    intro hlt fuel hfuel
    cases fuel with
    | zero => simp at hfuel
    | succ f =>
      have hres : findC parent r (f + 1) = (r, parent) := by
        simp only [findC, hr]
        simp
      rw [hres]
      refine ⟨rfl, rfl, fun x => Or.inr ⟨?_, rfl⟩⟩
      rintro ⟨hx, hxr⟩
      exact hxr (List.mem_singleton.mp hx)
  | step i p l r hp hne hc ih =>
    intro hlt fuel hfuel
    cases fuel with
    | zero => simp at hfuel
    | succ f =>
      have hrec := ih (fun y hy => hlt y (List.mem_cons_of_mem _ hy)) f
        (by simpa using hfuel)
      have hstep : findC parent i (f + 1)
          = ((findC parent p f).1, (findC parent p f).2.set i (findC parent p f).1) := by
        simp only [findC]
        rw [hp, if_neg hne]
      have hiner : i ≠ r := by
        intro hir
        have hfix : parent.getD r r = r :=
          chain_root_fix (ChainD.step i p _ _ hp hne hc)
        rw [← hir, hp] at hfix
        exact hne hfix
      have hilen : i < parent.length := hlt i (List.mem_cons_self _ _)
      rw [hstep]
      refine ⟨hrec.1, ?_, ?_⟩
      · simpa using hrec.2.1
      · intro x
        by_cases hxi : x = i
        · subst hxi
          refine Or.inl ⟨List.mem_cons_self _ _, hiner, ?_⟩
          rw [hrec.1, getD_set_self (by rw [hrec.2.1]; exact hilen)]
        · rw [getD_set_other (fun h => hxi h.symm)]
          rcases hrec.2.2 x with ⟨hmem, hxr, hset⟩ | ⟨hnmem, hsame⟩
          · exact Or.inl ⟨List.mem_cons_of_mem _ hmem, hxr, hset⟩
          · refine Or.inr ⟨?_, hsame⟩
            rintro ⟨hx, hxr⟩
            rcases List.mem_cons.mp hx with hx | hx
            · exact hxi hx
            · exact hnmem ⟨hx, hxr⟩

/-- Path compression preserves every node's chain up to shortening: the new
chain is a duplicate-free subset of the old one with the same root. -/
theorem compress_preserves_chain {parent parent' : List ℕ} {ic rc : ℕ}
    {lc : List ℕ} (hcchain : ChainD parent ic lc rc)
    (hcomp : CompressedOn lc rc parent parent') :
    ∀ {x : ℕ} {lx : List ℕ} {rx : ℕ}, ChainD parent x lx rx → lx.Nodup →
      ∃ lx', ChainD parent' x lx' rx ∧ lx' ⊆ lx ∧ lx'.Nodup := by
  intro x lx rx h
  induction h with
  | root x hx =>
    intro hnd
    rcases hcomp.2 x with ⟨hmem, hxr, hset⟩ | ⟨_, hsame⟩
    · have hroot : Rooted parent x rc := chain_mem_rooted hcchain x hmem
      have hself : Rooted parent x x := ⟨[x], ChainD.root x hx⟩
      exact absurd (rooted_unique hself hroot) (fun h => hxr h)
    · exact ⟨[x], ChainD.root x (by rw [hsame]; exact hx),
        List.Subset.refl _, List.nodup_singleton x⟩
  | step x p l r hp hne hc ih =>
    intro hnd
    have hndtail := (List.nodup_cons.mp hnd).2
    have hxnotin := (List.nodup_cons.mp hnd).1
    rcases hcomp.2 x with ⟨hmem, hxr, hset⟩ | ⟨_, hsame⟩
    · have hrooted1 : Rooted parent x rc := chain_mem_rooted hcchain x hmem
      have hrooted2 : Rooted parent x _ := ⟨_, ChainD.step x p _ _ hp hne hc⟩
      have hrr := rooted_unique hrooted1 hrooted2
      have hrcfix : parent'.getD rc rc = rc := by
        rcases hcomp.2 rc with ⟨_, hne', _⟩ | ⟨_, hsame'⟩
        · exact absurd rfl hne'
        · rw [hsame']
          exact chain_root_fix hcchain
      subst hrr
      refine ⟨[x, rc], ChainD.step x rc _ _ hset (fun h => hxr h.symm)
        (ChainD.root rc hrcfix), ?_, ?_⟩
      · intro z hz
        rcases List.mem_cons.mp hz with hz | hz
        · subst hz; exact List.mem_cons_self _ _
        · rw [List.mem_singleton] at hz
          subst hz
          exact List.mem_cons_of_mem _ (chain_mem_last hc)
      · simp [List.nodup_cons]
        exact fun h => hxr h
    · obtain ⟨l', hcl', hsub, hnd'⟩ := ih hndtail
      refine ⟨x :: l', ChainD.step x p _ _ (by rw [hsame]; exact hp) hne hcl', ?_, ?_⟩
      · exact List.cons_subset_cons x hsub
      · exact List.nodup_cons.mpr ⟨fun h => hxnotin (hsub h), hnd'⟩

/-- Path compression preserves well-formedness of the forest. -/
theorem compress_preserves_wf {n : ℕ} {parent parent' : List ℕ} {ic rc : ℕ}
    {lc : List ℕ} (hcchain : ChainD parent ic lc rc)
    (hcomp : CompressedOn lc rc parent parent') (hwf : UFWf n parent)
    (hrc : rc < n) : UFWf n parent' := by
  refine ⟨hcomp.1.trans hwf.1, ?_, ?_⟩
  · intro x hx
    rcases hcomp.2 x with ⟨_, _, hset⟩ | ⟨_, hsame⟩
    · rw [hset]; exact hrc
    · rw [hsame]; exact hwf.2.1 x hx
  · intro x hx
    obtain ⟨l, r, hchain, hnd, hbound⟩ := hwf.2.2 x hx
    obtain ⟨l', hchain', hsub, hnd'⟩ :=
      compress_preserves_chain hcchain hcomp hchain hnd
    exact ⟨l', r, hchain', hnd', fun y hy => hbound y (hsub hy)⟩

/-- Path compression preserves each node's root. -/
theorem compress_preserves_rooted {n : ℕ} {parent parent' : List ℕ} {ic rc : ℕ}
    {lc : List ℕ} (hcchain : ChainD parent ic lc rc)
    (hcomp : CompressedOn lc rc parent parent') (hwf : UFWf n parent)
    {x r : ℕ} (hx : x < n) (hr : Rooted parent x r) : Rooted parent' x r := by
  obtain ⟨l, rw, hchain, hnd, _⟩ := hwf.2.2 x hx
  obtain ⟨lx, hlx⟩ := hr
  obtain ⟨hleq, hreq⟩ := chain_unique hlx hchain
  subst hreq
  obtain ⟨l', hchain', _, _⟩ := compress_preserves_chain hcchain hcomp hchain hnd
  exact ⟨l', hchain'⟩

/-- Path compression leaves the same-root relation unchanged on in-range
nodes. -/
theorem compress_same_root_iff {n : ℕ} {parent parent' : List ℕ} {ic rc : ℕ}
    {lc : List ℕ} (hcchain : ChainD parent ic lc rc)
    (hcomp : CompressedOn lc rc parent parent') (hwf : UFWf n parent)
    {x y : ℕ} (hx : x < n) (hy : y < n) :
    sameRoot parent' x y ↔ sameRoot parent x y := by
  constructor
  · rintro ⟨r', hxr', hyr'⟩
    obtain ⟨lx, rx, hcx, hndx, _⟩ := hwf.2.2 x hx
    obtain ⟨ly, ry, hcy, hndy, _⟩ := hwf.2.2 y hy
    obtain ⟨lx', hcx', _, _⟩ := compress_preserves_chain hcchain hcomp hcx hndx
    obtain ⟨ly', hcy', _, _⟩ := compress_preserves_chain hcchain hcomp hcy hndy
    have h1 : rx = r' := rooted_unique ⟨lx', hcx'⟩ hxr'
    have h2 : ry = r' := rooted_unique ⟨ly', hcy'⟩ hyr'
    exact ⟨rx, ⟨lx, hcx⟩, by rw [h1, ← h2] at *; exact ⟨ly, hcy⟩⟩
  · rintro ⟨r, hxr, hyr⟩
    exact ⟨r, compress_preserves_rooted hcchain hcomp hwf hx hxr,
      compress_preserves_rooted hcchain hcomp hwf hy hyr⟩

/-- Same-root is symmetric. -/
theorem sameRoot_symm {parent : List ℕ} {x y : ℕ} (h : sameRoot parent x y) :
    sameRoot parent y x := by
  obtain ⟨r, hx, hy⟩ := h
  exact ⟨r, hy, hx⟩

/-- Same-root is transitive. -/
theorem sameRoot_trans {parent : List ℕ} {x y z : ℕ} (h1 : sameRoot parent x y)
    (h2 : sameRoot parent y z) : sameRoot parent x z := by
  obtain ⟨r, hx, hy⟩ := h1
  obtain ⟨r', hy', hz⟩ := h2
  rw [rooted_unique hy hy'] at hx
  exact ⟨r', hx, hz⟩

/-- Grafting the root `pi` under root `pj` extends every chain ending at `pi`
by one step to `pj`. -/
theorem chain_graft {parent : List ℕ} {pi pj : ℕ}
    (hpj : parent.getD pj pj = pj) (hne : pi ≠ pj) (hpilen : pi < parent.length) :
    ∀ {x : ℕ} {lx : List ℕ} {r : ℕ}, ChainD parent x lx r → r = pi →
      ChainD (parent.set pi pj) x (lx ++ [pj]) pj := by
  intro x lx r h
  induction h with
  | root r hr =>
    intro hrpi
    subst hrpi
    refine ChainD.step r pj _ _ ?_ (Ne.symm hne) (ChainD.root pj ?_)
    · exact getD_set_self hpilen
    · exact (getD_set_other hne).trans hpj
  | step i p l r hp hnei hc ih =>
    intro hrpi
    have hipi : i ≠ pi := by
      intro hii
      have hfix := chain_root_fix (ChainD.step i p _ _ hp hnei hc)
      rw [hrpi, ← hii] at hfix
      rw [hfix] at hp
      exact hnei hp.symm
    exact ChainD.step i p _ _ ((getD_set_other (Ne.symm hipi)).trans hp) hnei (ih hrpi)

/-- Writing slot `pi` leaves chains avoiding `pi` untouched. -/
theorem chain_preserve_other {parent : List ℕ} {pi pj : ℕ} :
    ∀ {x : ℕ} {lx : List ℕ} {rx : ℕ}, ChainD parent x lx rx → pi ∉ lx →
      ChainD (parent.set pi pj) x lx rx := by
  intro x lx rx h
  induction h with
  | root r hr =>
    intro hnotin
    have hner : pi ≠ r := fun h => hnotin (h ▸ List.mem_singleton.mpr rfl)
    exact ChainD.root r ((getD_set_other hner).trans hr)
  | step i p l r hp hne hc ih =>
    intro hnotin
    have hpii : pi ≠ i := fun h => hnotin (h ▸ List.mem_cons_self _ _)
    exact ChainD.step i p _ _ ((getD_set_other hpii).trans hp) hne
      (ih (fun h => hnotin (List.mem_cons_of_mem _ h)))

/-- Specification of `union`: the forest stays well formed and the same-root
relation becomes the join of the old relation with the pair `i, j`. -/
theorem union_spec {n : ℕ} {parent : List ℕ} (hwf : UFWf n parent) {i j : ℕ}
    (hi : i < n) (hj : j < n) :
    UFWf n (union parent i j) ∧
      ∀ x y, x < n → y < n →
        (sameRoot (union parent i j) x y ↔
          (sameRoot parent x y ∨ (sameRoot parent x i ∧ sameRoot parent j y) ∨
            (sameRoot parent x j ∧ sameRoot parent i y))) := by
  obtain ⟨li, ri, hci, hndi, hbi⟩ := hwf.2.2 i hi
  have hlen1 : parent.length = n := hwf.1
  have hfi := findC_spec hci (fun y hy => by rw [hlen1]; exact hbi y hy)
    parent.length (by rw [hlen1]; exact nodup_lt_length_le hndi hbi)
  have hri_n : ri < n := hbi ri (chain_mem_last hci)
  have hwf1 : UFWf n (findC parent i parent.length).2 :=
    compress_preserves_wf hci hfi.2 hwf hri_n
  obtain ⟨lj, rj, hcj1, hndj, hbj⟩ := hwf1.2.2 j hj
  have hlen2 : (findC parent i parent.length).2.length = n := hwf1.1
  have hfj := findC_spec hcj1 (fun y hy => by rw [hlen2]; exact hbj y hy)
    (findC parent i parent.length).2.length
    (by rw [hlen2]; exact nodup_lt_length_le hndj hbj)
  have hrj_n : rj < n := hbj rj (chain_mem_last hcj1)
  have hwf2 : UFWf n (findC (findC parent i parent.length).2 j
      (findC parent i parent.length).2.length).2 :=
    compress_preserves_wf hcj1 hfj.2 hwf1 hrj_n
  -- abbreviate the two intermediate arrays
  set parent1 := (findC parent i parent.length).2 with hparent1
  set parent2 := (findC parent1 j parent1.length).2 with hparent2
  -- root read-offs
  have hRi : Rooted parent i ri := ⟨li, hci⟩
  have hRi1 : Rooted parent1 i ri := compress_preserves_rooted hci hfi.2 hwf hi hRi
  have hRi2 : Rooted parent2 i ri := compress_preserves_rooted hcj1 hfj.2 hwf1 hi hRi1
  have hRj1 : Rooted parent1 j rj := ⟨lj, hcj1⟩
  have hRj2 : Rooted parent2 j rj := compress_preserves_rooted hcj1 hfj.2 hwf1 hj hRj1
  have hRj : Rooted parent j rj := by
    obtain ⟨lj0, rj0, hcj0, hndj0, hbj0⟩ := hwf.2.2 j hj
    have h0 : Rooted parent1 j rj0 :=
      compress_preserves_rooted hci hfi.2 hwf hj ⟨lj0, hcj0⟩
    rw [← rooted_unique h0 hRj1]
    exact ⟨lj0, hcj0⟩
  -- same-root transfer between parent and parent2
  have htrans : ∀ x y, x < n → y < n →
      (sameRoot parent2 x y ↔ sameRoot parent x y) := by
    intro x y hx hy
    rw [compress_same_root_iff hcj1 hfj.2 hwf1 hx hy,
      compress_same_root_iff hci hfi.2 hwf hx hy]
  -- characterize same-root-with-i and same-root-with-j by the roots ri, rj
  have hxi_iff : ∀ x, x < n → ∀ rx, Rooted parent2 x rx →
      (sameRoot parent x i ↔ rx = ri) := by
    intro x hx rx hrx
    rw [← htrans x i hx hi]
    constructor
    · rintro ⟨r, hxr, hir⟩
      rw [← rooted_unique hxr hrx]
      exact rooted_unique hir hRi2
    · intro hre
      exact ⟨ri, hre ▸ hrx, hRi2⟩
  have hxj_iff : ∀ x, x < n → ∀ rx, Rooted parent2 x rx →
      (sameRoot parent x j ↔ rx = rj) := by
    intro x hx rx hrx
    rw [← htrans x j hx hj]
    constructor
    · rintro ⟨r, hxr, hjr⟩
      rw [← rooted_unique hxr hrx]
      exact rooted_unique hjr hRj2
    · intro hre
      exact ⟨rj, hre ▸ hrx, hRj2⟩
  -- the branch taken by union
  have hunion : union parent i j
      = if ri ≠ rj then parent2.set ri rj else parent2 := by
    simp only [union, ← hparent1, ← hparent2, hfi.1, hfj.1]
  by_cases hij : ri = rj
  · -- roots already equal: nothing happens
    rw [hunion, if_neg (by simpa using hij)]
    refine ⟨hwf2, ?_⟩
    intro x y hx hy
    rw [htrans x y hx hy]
    constructor
    · exact Or.inl
    · rintro (h | ⟨h1, h2⟩ | ⟨h1, h2⟩)
      · exact h
      · exact sameRoot_trans h1 (sameRoot_trans ⟨rj, hij ▸ hRi, hRj⟩ h2)
      · exact sameRoot_trans h1 (sameRoot_trans ⟨rj, hRj, hij ▸ hRi⟩ h2)
  · -- graft ri under rj
    rw [hunion, if_pos hij]
    have hfixri : parent2.getD ri ri = ri := by
      obtain ⟨lri, hlri⟩ := hRi2
      exact chain_root_fix hlri
    have hfixrj : parent2.getD rj rj = rj := by
      obtain ⟨lrj, hlrj⟩ := hRj2
      exact chain_root_fix hlrj
    have hlen3 : parent2.length = n := hwf2.1
    have hri_len : ri < parent2.length := by rw [hlen3]; exact hri_n
    -- root mapping under the graft
    have hmap : ∀ x rx, Rooted parent2 x rx →
        Rooted (parent2.set ri rj) x (if rx = ri then rj else rx) := by
      intro x rx hrx
      obtain ⟨lx, hlx⟩ := hrx
      by_cases hxri : rx = ri
      · rw [if_pos hxri]
        exact ⟨lx ++ [rj], chain_graft hfixrj hij hri_len hlx hxri⟩
      · rw [if_neg hxri]
        refine ⟨lx, chain_preserve_other hlx ?_⟩
        intro hmem
        have h1 : Rooted parent2 ri rx := chain_mem_rooted hlx ri hmem
        have h2 : Rooted parent2 ri ri := ⟨[ri], ChainD.root ri hfixri⟩
        exact hxri (rooted_unique h1 h2)
    refine ⟨?_, ?_⟩
    · -- well-formedness after the graft
      refine ⟨by rw [List.length_set]; exact hlen3, ?_, ?_⟩
      · intro x hx
        by_cases hxri : x = ri
        · rw [hxri, getD_set_self hri_len]
          exact hrj_n
        · rw [getD_set_other (fun h => hxri h.symm)]
          exact hwf2.2.1 x hx
      · intro x hx
        obtain ⟨lx, rx, hlx, hnd, hb⟩ := hwf2.2.2 x hx
        by_cases hxri : rx = ri
        · refine ⟨lx ++ [rj], rj, chain_graft hfixrj hij hri_len hlx hxri, ?_, ?_⟩
          · rw [List.nodup_append]
            refine ⟨hnd, List.nodup_singleton _, ?_⟩
            intro z hz hz'
            rw [List.mem_singleton] at hz'
            have h1 : Rooted parent2 rj rx := hz' ▸ chain_mem_rooted hlx z hz
            obtain ⟨ljx, hljx⟩ := hRj2
            have h2 : Rooted parent2 rj rj := chain_root_self hljx
            rw [hxri] at h1
            exact hij (rooted_unique h2 h1).symm
          · intro y hy
            rcases List.mem_append.mp hy with hy | hy
            · exact hb y hy
            · rw [List.mem_singleton] at hy
              subst hy
              exact hrj_n
        · refine ⟨lx, rx, ?_, hnd, hb⟩
          refine chain_preserve_other hlx ?_
          intro hmem
          have h1 : Rooted parent2 ri rx := chain_mem_rooted hlx ri hmem
          have h2 : Rooted parent2 ri ri := ⟨[ri], ChainD.root ri hfixri⟩
          exact hxri (rooted_unique h1 h2)
    · -- the same-root relation after the graft
      intro x y hx hy
      obtain ⟨lx, rx, hlx, hndx, _⟩ := hwf2.2.2 x hx
      obtain ⟨ly, ry, hly, hndy, _⟩ := hwf2.2.2 y hy
      have hmx := hmap x rx ⟨lx, hlx⟩
      have hmy := hmap y ry ⟨ly, hly⟩
      rw [hxi_iff x hx rx ⟨lx, hlx⟩, hxj_iff x hx rx ⟨lx, hlx⟩]
      have hyi : sameRoot parent i y ↔ ry = ri := by
        rw [← hxi_iff y hy ry ⟨ly, hly⟩]
        exact ⟨sameRoot_symm, sameRoot_symm⟩
      have hyj : sameRoot parent j y ↔ ry = rj := by
        rw [← hxj_iff y hy ry ⟨ly, hly⟩]
        exact ⟨sameRoot_symm, sameRoot_symm⟩
      rw [hyi, hyj]
      have hxy : sameRoot parent x y ↔ rx = ry := by
        rw [← htrans x y hx hy]
        constructor
        · rintro ⟨r, hxr, hyr⟩
          rw [← rooted_unique hxr ⟨lx, hlx⟩]
          exact rooted_unique hyr ⟨ly, hly⟩
        · intro hre
          exact ⟨ry, hre ▸ ⟨lx, hlx⟩, ⟨ly, hly⟩⟩
      rw [hxy]
      constructor
      · rintro ⟨r3, hx3, hy3⟩
        have he1 : (if rx = ri then rj else rx) = r3 := rooted_unique hmx hx3
        have he2 : (if ry = ri then rj else ry) = r3 := rooted_unique hmy hy3
        by_cases h1 : rx = ri <;> by_cases h2 : ry = ri
        · exact Or.inl (h1.trans h2.symm)
        · rw [if_pos h1] at he1
          rw [if_neg h2] at he2
          exact Or.inr (Or.inl ⟨h1, he2.trans he1.symm⟩)
        · rw [if_neg h1] at he1
          rw [if_pos h2] at he2
          exact Or.inr (Or.inr ⟨he1.trans he2.symm, h2⟩)
        · rw [if_neg h1] at he1
          rw [if_neg h2] at he2
          exact Or.inl (he1.trans he2.symm)
      · rintro (h | ⟨h1, h2⟩ | ⟨h1, h2⟩)
        · exact ⟨_, hmx, h ▸ hmy⟩
        · -- rx = ri and ry = rj
          refine ⟨rj, ?_, ?_⟩
          · rw [if_pos h1] at hmx
            exact hmx
          · rw [if_neg (by rw [h2]; exact Ne.symm hij)] at hmy
            exact h2 ▸ hmy
        · -- rx = rj and ry = ri
          refine ⟨rj, ?_, ?_⟩
          · rw [if_neg (by rw [h1]; exact Ne.symm hij)] at hmx
            exact h1 ▸ hmx
          · rw [if_pos h2] at hmy
            exact hmy

/-- Pointwise equivalent relations generate the same equivalence. -/
theorem eqvGen_congr {R S : ℕ → ℕ → Prop} (h : ∀ u v, R u v ↔ S u v) {x y : ℕ} :
    Relation.EqvGen R x y ↔ Relation.EqvGen S x y :=
  ⟨Relation.EqvGen.mono (fun u v => (h u v).mp),
    Relation.EqvGen.mono (fun u v => (h u v).mpr)⟩

/-- The equivalence generated by the empty relation is equality. -/
theorem eqvGen_empty_iff {x y : ℕ} :
    Relation.EqvGen (fun _ _ => False) x y ↔ x = y := by
  constructor
  · intro h
    induction h with
    | rel u v huv => exact absurd huv (by simp)
    | refl u => rfl
    | symm u v _ ih => exact ih.symm
    | trans u v w _ _ ih1 ih2 => exact ih1.trans ih2
  · rintro rfl
    exact Relation.EqvGen.refl x

/-- Adjoining a single edge `(a, b)` to a relation: membership in the
generated equivalence decomposes through the old equivalence classes of `a`
and `b`. -/
theorem eqvGen_or_single {R : ℕ → ℕ → Prop} {a b : ℕ} :
    ∀ {x y : ℕ}, Relation.EqvGen (fun u v => R u v ∨ (u = a ∧ v = b)) x y ↔
      (Relation.EqvGen R x y ∨
        (Relation.EqvGen R x a ∧ Relation.EqvGen R b y) ∨
        (Relation.EqvGen R x b ∧ Relation.EqvGen R a y)) := by
  intro x y
  constructor
  · intro h
    induction h with
    | rel u v huv =>
      rcases huv with huv | ⟨hua, hvb⟩
      · exact Or.inl (Relation.EqvGen.rel u v huv)
      · subst hua; subst hvb
        exact Or.inr (Or.inl ⟨Relation.EqvGen.refl u, Relation.EqvGen.refl v⟩)
    | refl u => exact Or.inl (Relation.EqvGen.refl u)
    | symm u v _ ih =>
      rcases ih with h | ⟨h1, h2⟩ | ⟨h1, h2⟩
      · exact Or.inl (Relation.EqvGen.symm u v h)
      · exact Or.inr (Or.inr ⟨Relation.EqvGen.symm _ _ h2, Relation.EqvGen.symm _ _ h1⟩)
      · exact Or.inr (Or.inl ⟨Relation.EqvGen.symm _ _ h2, Relation.EqvGen.symm _ _ h1⟩)
    | trans u v w _ _ ih1 ih2 =>
      rcases ih1 with h | ⟨h1, h2⟩ | ⟨h1, h2⟩ <;>
        rcases ih2 with h' | ⟨h3, h4⟩ | ⟨h3, h4⟩
      · exact Or.inl (Relation.EqvGen.trans _ _ _ h h')
      · exact Or.inr (Or.inl ⟨Relation.EqvGen.trans _ _ _ h h3, h4⟩)
      · exact Or.inr (Or.inr ⟨Relation.EqvGen.trans _ _ _ h h3, h4⟩)
      · exact Or.inr (Or.inl ⟨h1, Relation.EqvGen.trans _ _ _ h2 h'⟩)
      · exact Or.inr (Or.inl ⟨h1, h4⟩)
      · exact Or.inl (Relation.EqvGen.trans _ _ _ h1 h4)
      · exact Or.inr (Or.inr ⟨h1, Relation.EqvGen.trans _ _ _ h2 h'⟩)
      · exact Or.inl (Relation.EqvGen.trans _ _ _ h1 h4)
      · exact Or.inr (Or.inr ⟨h1, h4⟩)
  · have hemb : ∀ {u v : ℕ}, Relation.EqvGen R u v →
        Relation.EqvGen (fun u v => R u v ∨ (u = a ∧ v = b)) u v :=
      fun h => Relation.EqvGen.mono (fun u v huv => Or.inl huv) h
    have hedge : Relation.EqvGen (fun u v => R u v ∨ (u = a ∧ v = b)) a b :=
      Relation.EqvGen.rel a b (Or.inr ⟨rfl, rfl⟩)
    rintro (h | ⟨h1, h2⟩ | ⟨h1, h2⟩)
    · exact hemb h
    · exact Relation.EqvGen.trans _ _ _ (hemb h1)
        (Relation.EqvGen.trans _ _ _ hedge (hemb h2))
    · exact Relation.EqvGen.trans _ _ _ (hemb h1)
        (Relation.EqvGen.trans _ _ _ (Relation.EqvGen.symm _ _ hedge) (hemb h2))

/-- Reading the identity parent array gives the index back, in or out of
range. -/
theorem getD_range_self (n x : ℕ) : (List.range n).getD x x = x := by
  by_cases h : x < n
  · rw [List.getD_eq_getElem _ _ (by simpa using h)]
    simp
  · exact List.getD_eq_default _ _ (by simpa using not_lt.mp h)

/-- The identity parent array is a well-formed forest whose same-root
relation is equality — the state before any pair is processed. -/
theorem pairInv_init (strokes : List Stroke) :
    PairInv strokes [] (List.range strokes.length) := by
  have hroot : ∀ x r, Rooted (List.range strokes.length) x r → r = x := by
    intro x r hr
    obtain ⟨l, hl⟩ := hr
    cases hl with
    | root r hr => rfl
    | step i p l r hp hne hc =>
      rw [getD_range_self] at hp
      exact absurd hp.symm hne
  refine ⟨⟨by simp, ?_, ?_⟩, ?_⟩
  · intro i hi
    rw [getD_range_self]
    exact hi
  · intro i hi
    exact ⟨[i], i, ChainD.root i (getD_range_self _ i), List.nodup_singleton i,
      by simpa using hi⟩
  · intro x y hx hy
    have hiff : edgeOf strokes [] = fun _ _ => False := by
      funext u v
      simp [edgeOf]
    rw [hiff, eqvGen_empty_iff]
    constructor
    · rintro ⟨r, hxr, hyr⟩
      rw [← hroot x r hxr, ← hroot y r hyr]
    · rintro rfl
      exact ⟨x, ⟨[x], ChainD.root x (getD_range_self _ x)⟩,
        ⟨[x], ChainD.root x (getD_range_self _ x)⟩⟩

/-- The pair loop preserves `PairInv`, extending the processed list. -/
theorem pairLoop_inv (strokes : List Stroke) :
    ∀ (rest done : List (ℕ × ℕ)) (parent : List ℕ),
      PairInv strokes done parent →
      (∀ pr ∈ rest, pr.1 < strokes.length ∧ pr.2 < strokes.length) →
      PairInv strokes (done ++ rest)
        (rest.foldl (fun parent ij =>
          if shouldGroupStrokes (strokes.getD ij.1 default)
              (strokes.getD ij.2 default) groupingThreshold then
            union parent ij.1 ij.2
          else parent) parent) := by
  intro rest
  induction rest with
  | nil =>
    intro done parent hinv _
    simpa using hinv
  | cons pr rest ih =>
    intro done parent hinv hbound
    have hpr := hbound pr (List.mem_cons_self _ _)
    rw [List.foldl_cons]
    have hstep : PairInv strokes (done ++ [pr])
        (if shouldGroupStrokes (strokes.getD pr.1 default)
            (strokes.getD pr.2 default) groupingThreshold then
          union parent pr.1 pr.2
        else parent) := by
      have hedge_iff : ∀ hG : shouldGroupStrokes (strokes.getD pr.1 default)
          (strokes.getD pr.2 default) groupingThreshold = true,
          ∀ u v, edgeOf strokes (done ++ [pr]) u v ↔
            (edgeOf strokes done u v ∨ (u = pr.1 ∧ v = pr.2)) := by
        intro hG u v
        constructor
        · rintro ⟨hmem, hsh⟩
          rcases List.mem_append.mp hmem with hmem | hmem
          · exact Or.inl ⟨hmem, hsh⟩
          · rw [List.mem_singleton] at hmem
            rw [Prod.ext_iff] at hmem
            exact Or.inr ⟨hmem.1, hmem.2⟩
        · rintro (⟨hmem, hsh⟩ | ⟨h1, h2⟩)
          · exact ⟨List.mem_append_left _ hmem, hsh⟩
          · subst h1; subst h2
            exact ⟨List.mem_append_right _ (List.mem_singleton.mpr
              (Prod.ext_iff.mpr ⟨rfl, rfl⟩)), hG⟩
      by_cases hG : shouldGroupStrokes (strokes.getD pr.1 default)
          (strokes.getD pr.2 default) groupingThreshold = true
      · rw [if_pos hG]
        obtain ⟨hwf', hrel'⟩ := union_spec hinv.1 hpr.1 hpr.2
        refine ⟨hwf', ?_⟩
        intro x y hx hy
        rw [hrel' x y hx hy]
        rw [eqvGen_congr (hedge_iff hG), eqvGen_or_single]
        rw [hinv.2 x y hx hy, hinv.2 x pr.1 hx hpr.1, hinv.2 pr.2 y hpr.2 hy,
          hinv.2 x pr.2 hx hpr.2, hinv.2 pr.1 y hpr.1 hy]
      · rw [if_neg hG]
        refine ⟨hinv.1, ?_⟩
        intro x y hx hy
        rw [hinv.2 x y hx hy]
        refine eqvGen_congr ?_
        intro u v
        constructor
        · rintro ⟨hmem, hsh⟩
          exact ⟨List.mem_append_left _ hmem, hsh⟩
        · rintro ⟨hmem, hsh⟩
          rcases List.mem_append.mp hmem with hmem | hmem
          · exact ⟨hmem, hsh⟩
          · rw [List.mem_singleton] at hmem
            subst hmem
            exact absurd hsh hG
    have hres := ih (done ++ [pr]) _ hstep
      (fun q hq => hbound q (List.mem_cons_of_mem _ hq))
    rw [List.append_assoc] at hres
    simpa using hres

/-- A compression step neither adds nor removes any root assignment of an
in-range node. -/
theorem compress_rooted_iff {n : ℕ} {parent parent' : List ℕ} {ic rc : ℕ}
    {lc : List ℕ} (hcchain : ChainD parent ic lc rc)
    (hcomp : CompressedOn lc rc parent parent') (hwf : UFWf n parent)
    {x r : ℕ} (hx : x < n) : Rooted parent' x r ↔ Rooted parent x r := by
  constructor
  · intro h
    obtain ⟨lx, rx, hcx, hnd, _⟩ := hwf.2.2 x hx
    obtain ⟨lx', hcx', _, _⟩ := compress_preserves_chain hcchain hcomp hcx hnd
    rw [← rooted_unique ⟨lx', hcx'⟩ h]
    exact ⟨lx, hcx⟩
  · exact compress_preserves_rooted hcchain hcomp hwf hx

/-- Inserting an index into its root's bucket preserves the collection
invariant. -/
theorem insertGroup_inv {parent : List ℕ} {processed : List ℕ}
    {acc : List (ℕ × List ℕ)} (hinv : CollectInv parent processed acc)
    {r i : ℕ} (hri : Rooted parent i r) :
    CollectInv parent (processed ++ [i]) (insertGroup acc r i) := by
  obtain ⟨h1, h2, h3⟩ := hinv
  unfold insertGroup
  by_cases hany : acc.any (fun g => g.1 = r) = true
  · rw [if_pos hany]
    refine ⟨?_, ?_, ?_⟩
    · intro g' hg' x hx
      rw [List.mem_map] at hg'
      obtain ⟨g, hg, hfg⟩ := hg'
      by_cases hgr : g.1 = r
      · rw [if_pos hgr] at hfg
        subst hfg
        rcases List.mem_append.mp hx with hx | hx
        · obtain ⟨hxp, hroot⟩ := h1 g hg x hx
          exact ⟨List.mem_append_left _ hxp, hroot⟩
        · rw [List.mem_singleton] at hx
          subst hx
          exact ⟨List.mem_append_right _ (List.mem_singleton.mpr rfl), hgr ▸ hri⟩
      · rw [if_neg hgr] at hfg
        subst hfg
        obtain ⟨hxp, hroot⟩ := h1 g hg x hx
        exact ⟨List.mem_append_left _ hxp, hroot⟩
    · intro x hx
      rcases List.mem_append.mp hx with hx | hx
      · obtain ⟨g, hg, hxg⟩ := h2 x hx
        refine ⟨if g.1 = r then (g.1, g.2 ++ [i]) else g,
          List.mem_map_of_mem _ hg, ?_⟩
        by_cases hgr : g.1 = r
        · rw [if_pos hgr]
          exact List.mem_append_left _ hxg
        · rw [if_neg hgr]
          exact hxg
      · rw [List.mem_singleton] at hx
        subst hx
        obtain ⟨g, hg, hgr⟩ := List.any_eq_true.mp hany
        refine ⟨(g.1, g.2 ++ [x]), ?_,
          List.mem_append_right _ (List.mem_singleton.mpr rfl)⟩
        rw [List.mem_map]
        exact ⟨g, hg, by rw [if_pos (of_decide_eq_true hgr)]⟩
    · have hkeys : (acc.map (fun g => if g.1 = r then (g.1, g.2 ++ [i]) else g)).map
          (fun g => g.1) = acc.map (fun g => g.1) := by
        rw [List.map_map]
        apply List.map_congr_left
        intro g hg
        by_cases hgr : g.1 = r
        · simp [hgr]
        · simp [hgr]
      rw [hkeys]
      exact h3
  · rw [if_neg hany]
    refine ⟨?_, ?_, ?_⟩
    · intro g' hg' x hx
      rcases List.mem_append.mp hg' with hg | hg
      · obtain ⟨hxp, hroot⟩ := h1 g' hg x hx
        exact ⟨List.mem_append_left _ hxp, hroot⟩
      · rw [List.mem_singleton] at hg
        subst hg
        rw [List.mem_singleton] at hx
        subst hx
        exact ⟨List.mem_append_right _ (List.mem_singleton.mpr rfl), hri⟩
    · intro x hx
      rcases List.mem_append.mp hx with hx | hx
      · obtain ⟨g, hg, hxg⟩ := h2 x hx
        exact ⟨g, List.mem_append_left _ hg, hxg⟩
      · rw [List.mem_singleton] at hx
        subst hx
        exact ⟨(r, [x]), List.mem_append_right _ (List.mem_singleton.mpr rfl),
          List.mem_singleton.mpr rfl⟩
    · rw [List.map_append, List.nodup_append]
      refine ⟨h3, by simp, ?_⟩
      intro k hk hk'
      simp only [List.map_cons, List.map_nil, List.mem_singleton] at hk'
      subst hk'
      rw [List.mem_map] at hk
      obtain ⟨g, hg, hgk⟩ := hk
      exact hany (List.any_eq_true.mpr ⟨g, hg, by rw [hgk]; simp⟩)

/-- The collection loop buckets every processed index under its root in the
forest it started from. -/
theorem collectAux_spec {n : ℕ} :
    ∀ (is : List ℕ) (parent : List ℕ) (acc : List (ℕ × List ℕ))
      (processed : List ℕ),
      UFWf n parent → CollectInv parent processed acc →
      (∀ i ∈ is, i < n) → (∀ x ∈ processed, x < n) →
      CollectInv parent (processed ++ is) (collectAux parent is acc).1 := by
  intro is
  induction is with
  | nil =>
    intro parent acc processed hwf hinv _ _
    simpa [collectAux] using hinv
  | cons i is ih =>
    intro parent acc processed hwf hinv hib hpb
    have hi : i < n := hib i (List.mem_cons_self _ _)
    obtain ⟨li, ri, hci, hndi, hbi⟩ := hwf.2.2 i hi
    have hlen : parent.length = n := hwf.1
    have hf := findC_spec hci (fun y hy => by rw [hlen]; exact hbi y hy)
      parent.length (by rw [hlen]; exact nodup_lt_length_le hndi hbi)
    have hri_n : ri < n := hbi ri (chain_mem_last hci)
    have hwf1 : UFWf n (findC parent i parent.length).2 :=
      compress_preserves_wf hci hf.2 hwf hri_n
    have hinv1 : CollectInv (findC parent i parent.length).2 processed acc := by
      obtain ⟨h1, h2, h3⟩ := hinv
      refine ⟨?_, h2, h3⟩
      intro g hg x hx
      obtain ⟨hxp, hroot⟩ := h1 g hg x hx
      exact ⟨hxp, (compress_rooted_iff hci hf.2 hwf (hpb x hxp)).mpr hroot⟩
    have hRi1 : Rooted (findC parent i parent.length).2 i ri :=
      compress_preserves_rooted hci hf.2 hwf hi ⟨li, hci⟩
    have hstep := insertGroup_inv hinv1 hRi1
    have hunfold : collectAux parent (i :: is) acc
        = collectAux (findC parent i parent.length).2 is
            (insertGroup acc (findC parent i parent.length).1 i) := rfl
    rw [hunfold, hf.1]
    have hres := ih (findC parent i parent.length).2 (insertGroup acc ri i)
      (processed ++ [i]) hwf1 hstep
      (fun x hx => hib x (List.mem_cons_of_mem _ hx))
      (fun x hx => by
        rcases List.mem_append.mp hx with hx | hx
        · exact hpb x hx
        · rw [List.mem_singleton] at hx
          subst hx
          exact hi)
    have hback : CollectInv parent ((processed ++ [i]) ++ is)
        (collectAux (findC parent i parent.length).2 is
          (insertGroup acc ri i)).1 := by
      obtain ⟨h1, h2, h3⟩ := hres
      refine ⟨?_, h2, h3⟩
      intro g hg x hx
      obtain ⟨hxp, hroot⟩ := h1 g hg x hx
      have hxn : x < n := by
        rcases List.mem_append.mp hxp with hx' | hx'
        · rcases List.mem_append.mp hx' with hx'' | hx''
          · exact hpb x hx''
          · rw [List.mem_singleton] at hx''
            subst hx''
            exact hi
        · exact hib x (List.mem_cons_of_mem _ hx')
      exact ⟨hxp, (compress_rooted_iff hci hf.2 hwf hxn).mp hroot⟩
    rw [List.append_assoc] at hback
    simpa using hback

end StrokeGrouping

/-- Counterexample to C5: `shouldGroupStrokes` is not symmetric (its quick-
succession test measures from the first stroke's last point to the second
stroke's first point), and the code evaluates each pair only in list order.
Stroke `A` (drawn over 0–2000 ms) and stroke `B` (drawn 2500–2600 ms)
satisfy `shouldGroupStrokes A B`, yet grouping the list `[B, A]` — where
the code evaluates only `shouldGroupStrokes B A`, which fails — leaves them
in two separate characters, against the symmetric connected-components
reading. -/
theorem claim_union_find_counterexample :
    Geometry.shouldGroupStrokes
        ⟨[⟨0, 0, 0⟩, ⟨10, 10, 2000⟩], ⟨0, 0, 10, 10, 10, 10, 5, 5⟩⟩
        ⟨[⟨20, 20, 2500⟩, ⟨30, 30, 2600⟩], ⟨20, 20, 30, 30, 10, 10, 25, 25⟩⟩
        (15/100) = true ∧
    (StrokeGrouping.groupStrokesIntoCharacters
        [⟨[⟨20, 20, 2500⟩, ⟨30, 30, 2600⟩], ⟨20, 20, 30, 30, 10, 10, 25, 25⟩⟩,
         ⟨[⟨0, 0, 0⟩, ⟨10, 10, 2000⟩], ⟨0, 0, 10, 10, 10, 10, 5, 5⟩⟩]).length = 2 ∧
    ¬ StrokeGrouping.inSameCharacter
        [⟨[⟨20, 20, 2500⟩, ⟨30, 30, 2600⟩], ⟨20, 20, 30, 30, 10, 10, 25, 25⟩⟩,
         ⟨[⟨0, 0, 0⟩, ⟨10, 10, 2000⟩], ⟨0, 0, 10, 10, 10, 10, 5, 5⟩⟩] 0 1 :=
  ⟨of_decide_eq_true (by with_unfolding_all rfl),
    of_decide_eq_true (by with_unfolding_all rfl),
    of_decide_eq_true (by with_unfolding_all rfl)⟩

/-- C5 as amended: `groupStrokesIntoCharacters` partitions the stroke
indices into the connected components of the pairwise relation exactly as
the code evaluates it — an edge between positions `i < j` when
`shouldGroupStrokes(strokes[i], strokes[j])` holds (`evalEdge`): two
strokes end in the same output character precisely when they are related by
the equivalence generated by those edges.  In particular a chain
`evalEdge i j`, `evalEdge j k` puts all three strokes in one character even
when `shouldGroupStrokes` fails on the outer pair. -/
theorem claim_union_find_components (strokes : List Geometry.Stroke) (i j : ℕ)
    (hi : i < strokes.length) (hj : j < strokes.length) :
    StrokeGrouping.inSameCharacter strokes i j ↔
      Relation.EqvGen (StrokeGrouping.evalEdge strokes) i j := by
  have hloop := StrokeGrouping.pairLoop_inv strokes
    (StrokeGrouping.pairList strokes.length) [] (List.range strokes.length)
    (StrokeGrouping.pairInv_init strokes)
    (fun pr hpr => by
      obtain ⟨u, v⟩ := pr
      obtain ⟨h1, h2⟩ := StrokeGrouping.mem_pairList.mp hpr
      exact ⟨lt_trans h1 h2, h2⟩)
  simp only [List.nil_append] at hloop
  have hP : StrokeGrouping.PairInv strokes (StrokeGrouping.pairList strokes.length)
      (StrokeGrouping.groupParent strokes) := hloop
  have hcinit : StrokeGrouping.CollectInv (StrokeGrouping.groupParent strokes) [] [] :=
    ⟨fun g hg => absurd hg (List.not_mem_nil g),
      fun x hx => absurd hx (List.not_mem_nil x), List.nodup_nil⟩
  have hcoll := StrokeGrouping.collectAux_spec (List.range strokes.length)
    (StrokeGrouping.groupParent strokes) [] [] hP.1 hcinit
    (fun x hx => List.mem_range.mp hx)
    (fun x hx => absurd hx (List.not_mem_nil x))
  simp only [List.nil_append] at hcoll
  have hedge_iff : ∀ u v,
      StrokeGrouping.edgeOf strokes (StrokeGrouping.pairList strokes.length) u v ↔
        StrokeGrouping.evalEdge strokes u v := by
    intro u v
    unfold StrokeGrouping.edgeOf StrokeGrouping.evalEdge
    rw [StrokeGrouping.mem_pairList]
    constructor
    · rintro ⟨⟨h1, h2⟩, h3⟩
      exact ⟨h1, h2, h3⟩
    · rintro ⟨h1, h2, h3⟩
      exact ⟨⟨h1, h2⟩, h3⟩
  obtain ⟨hc1, hc2, hc3⟩ := hcoll
  constructor
  · rintro ⟨l, hl, hil, hjl⟩
    simp only [StrokeGrouping.groupIndices] at hl
    rw [List.mem_map] at hl
    obtain ⟨g, hg, hgl⟩ := hl
    subst hgl
    have h1 := hc1 g hg i hil
    have h2 := hc1 g hg j hjl
    have hsr : StrokeGrouping.sameRoot (StrokeGrouping.groupParent strokes) i j :=
      ⟨g.1, h1.2, h2.2⟩
    rw [hP.2 i j hi hj] at hsr
    exact (StrokeGrouping.eqvGen_congr hedge_iff).mp hsr
  · intro he
    have hsr : StrokeGrouping.sameRoot (StrokeGrouping.groupParent strokes) i j :=
      (hP.2 i j hi hj).mpr ((StrokeGrouping.eqvGen_congr hedge_iff).mpr he)
    obtain ⟨gi, hgi, higi⟩ := hc2 i (List.mem_range.mpr hi)
    obtain ⟨gj, hgj, hjgj⟩ := hc2 j (List.mem_range.mpr hj)
    have hri := (hc1 gi hgi i higi).2
    have hrj := (hc1 gj hgj j hjgj).2
    obtain ⟨r, hir, hjr⟩ := hsr
    have hkey : gi.1 = gj.1 := by
      rw [StrokeGrouping.rooted_unique hri hir, StrokeGrouping.rooted_unique hrj hjr]
    have hgg : gi = gj := List.inj_on_of_nodup_map hc3 hgi hgj hkey
    refine ⟨gi.2, ?_, higi, ?_⟩
    · simp only [StrokeGrouping.groupIndices]
      exact List.mem_map_of_mem _ hgi
    · rw [hgg]
      exact hjgj

/-- Witness for C5's amended claim: three strokes on a diagonal where only
consecutive pairs satisfy `shouldGroupStrokes` all land in one character,
although the grouping test fails on the outer pair directly. -/
theorem claim_union_find_components_witness :
    StrokeGrouping.inSameCharacter
      [⟨[⟨0, 0, 0⟩, ⟨10, 10, 100⟩], ⟨0, 0, 10, 10, 10, 10, 5, 5⟩⟩,
       ⟨[⟨20, 20, 200⟩, ⟨30, 30, 300⟩], ⟨20, 20, 30, 30, 10, 10, 25, 25⟩⟩,
       ⟨[⟨40, 40, 400⟩, ⟨50, 50, 500⟩], ⟨40, 40, 50, 50, 10, 10, 45, 45⟩⟩] 0 2 ∧
    Geometry.shouldGroupStrokes
      ⟨[⟨0, 0, 0⟩, ⟨10, 10, 100⟩], ⟨0, 0, 10, 10, 10, 10, 5, 5⟩⟩
      ⟨[⟨40, 40, 400⟩, ⟨50, 50, 500⟩], ⟨40, 40, 50, 50, 10, 10, 45, 45⟩⟩
      (15/100) = false := by
  refine ⟨?_, of_decide_eq_true (by with_unfolding_all rfl)⟩
  refine (claim_union_find_components
    [⟨[⟨0, 0, 0⟩, ⟨10, 10, 100⟩], ⟨0, 0, 10, 10, 10, 10, 5, 5⟩⟩,
     ⟨[⟨20, 20, 200⟩, ⟨30, 30, 300⟩], ⟨20, 20, 30, 30, 10, 10, 25, 25⟩⟩,
     ⟨[⟨40, 40, 400⟩, ⟨50, 50, 500⟩], ⟨40, 40, 50, 50, 10, 10, 45, 45⟩⟩] 0 2
    (by simp) (by simp)).mpr ?_
  refine Relation.EqvGen.trans 0 1 2 (Relation.EqvGen.rel 0 1 ?_)
    (Relation.EqvGen.rel 1 2 ?_)
  · exact ⟨by norm_num, by simp, of_decide_eq_true (by with_unfolding_all rfl)⟩
  · exact ⟨by norm_num, by simp, of_decide_eq_true (by with_unfolding_all rfl)⟩

namespace MathSolver

/-- C1: a string ending in `=` is classified as an equation, its operator
glyphs are normalized (`×`→`*`, `÷`→`/`), and the prefix before `=` is
evaluated: `2+2=` gives `4`, `5×3=` gives `15`, `8÷2=` gives `4`, each with
success and no error, in any scope. -/
theorem claim_equation_instances (scope : MathScope) :
    (parseExpression scope "2+2=").type = ParsedType.equation ∧
    (parseExpression scope "2+2=").expressionStr = some "2+2" ∧
    (parseExpression scope "5×3=").expressionStr = some "5*3" ∧
    (parseExpression scope "8÷2=").expressionStr = some "8/2" ∧
    (evaluateExpression scope "2+2=").1 = ⟨true, some "4", some 4, none, none⟩ ∧
    (evaluateExpression scope "5×3=").1 = ⟨true, some "15", some 15, none, none⟩ ∧
    (evaluateExpression scope "8÷2=").1 = ⟨true, some "4", some 4, none, none⟩ :=
  ⟨rfl, rfl, rfl, rfl, by with_unfolding_all rfl, by with_unfolding_all rfl,
    by with_unfolding_all rfl⟩

/-- Witness for C1 at the empty scope. -/
theorem claim_equation_instances_witness :
    (evaluateExpression [] "2+2=").1 = ⟨true, some "4", some 4, none, none⟩ :=
  (claim_equation_instances []).2.2.2.2.1

/-- C2: `x=5` is classified as an assignment, succeeds with result `5`, and
writes `x = 5` into the scope; evaluating `x+3=` against the resulting scope
succeeds with result `8`. -/
theorem claim_scope_persists :
    (parseExpression [] "x=5").type = ParsedType.assignment ∧
    (evaluateExpression [] "x=5").1 = ⟨true, some "5", some 5, none, some ("x", 5)⟩ ∧
    scopeGet (evaluateExpression [] "x=5").2 "x" = some 5 ∧
    (evaluateExpression (evaluateExpression [] "x=5").2 "x+3=").1
      = ⟨true, some "8", some 8, none, none⟩ :=
  ⟨by with_unfolding_all rfl, by with_unfolding_all rfl, by with_unfolding_all rfl,
    by with_unfolding_all rfl⟩

/-- C3: after a successful `x=5` and a `clearScope`, `x+3=` fails with an
undefined-variable error, success `false` and no result. -/
theorem claim_clear_scope_resets :
    (evaluateExpression [] "x=5").1.success = true ∧
    clearScope = [] ∧
    (evaluateExpression clearScope "x+3=").1
      = ⟨false, none, none, some "Undefined symbol x", none⟩ :=
  ⟨by with_unfolding_all rfl, rfl, by with_unfolding_all rfl⟩

/-- Evaluating the full text `x=y+2` reduces to evaluating `y+2` and, on
success, assigning the result to `x` — the modelled math.js assignment
semantics. -/
theorem mathEvaluate_xy2 (scope : MathScope) :
    mathEvaluate "x=y+2".data scope =
      match scopeGet scope "y" with
      | some v => .ok (v + 2, scopeSet scope "x" (v + 2))
      | none => .error "Undefined symbol y" := by
  have h0 : mathEvaluate "x=y+2".data scope =
      (evalMExpr scope (MExpr.add (MExpr.sym "y") (MExpr.num 2))).map
        (fun val => (val, scopeSet scope "x" val)) := by with_unfolding_all rfl
  rw [h0]
  cases h : scopeGet scope "y" <;>
    simp [evalMExpr, h, Except.map, Except.bind, bind, pure, Except.pure]

/-- Counterexample to C4: with `y = 1` in scope, the input `x=y+2` (single
letter, `=`, right side referencing another variable) is not rejected — it
is classified as a bare expression, evaluation succeeds with result `3`, and
the scope gains the binding `x = 3`. -/
theorem claim_malformed_assignment_counterexample :
    (parseExpression [("y", 1)] "x=y+2").type = ParsedType.expression ∧
    (evaluateExpression [("y", 1)] "x=y+2").1.success = true ∧
    (evaluateExpression [("y", 1)] "x=y+2").1.result = some "3" ∧
    (evaluateExpression [("y", 1)] "x=y+2").2 = [("y", 1), ("x", 3)] :=
  ⟨by with_unfolding_all rfl, by with_unfolding_all rfl, by with_unfolding_all rfl,
    by with_unfolding_all rfl⟩

/-- C4 as amended: an input of the shape letter-`=`-rhs whose right side is
not a pure numeric/operator expression (`x=y+2`) is not classified as an
assignment but as a bare expression handed to the math engine; when the
referenced variable is undefined the call fails and the scope is unchanged,
and when it is defined the engine performs the assignment, succeeding and
writing the binding. -/
theorem claim_malformed_assignment_amended (scope : MathScope) :
    (parseExpression scope "x=y+2").type = ParsedType.expression ∧
    (scopeGet scope "y" = none →
      (evaluateExpression scope "x=y+2").1.success = false ∧
      (evaluateExpression scope "x=y+2").1.result = none ∧
      (evaluateExpression scope "x=y+2").2 = scope) ∧
    (∀ v : ℚ, scopeGet scope "y" = some v →
      (evaluateExpression scope "x=y+2").1.success = true ∧
      (evaluateExpression scope "x=y+2").2 = scopeSet scope "x" (v + 2)) := by
  have hparse : parseExpression scope "x=y+2"
      = ⟨ParsedType.expression, none, none, some "x=y+2", none⟩ := rfl
  have heval : evaluateExpression scope "x=y+2"
      = match mathEvaluate "x=y+2".data scope with
        | .ok v => (⟨true, some (formatNumber v.1), some v.1, none, none⟩, v.2)
        | .error e => (⟨false, none, none, some e, none⟩, scope) := by
    with_unfolding_all rfl
  refine ⟨rfl, ?_, ?_⟩
  · intro hy
    rw [heval, mathEvaluate_xy2, hy]
    exact ⟨rfl, rfl, rfl⟩
  · intro v hy
    rw [heval, mathEvaluate_xy2, hy]
    exact ⟨rfl, rfl⟩

/-- Witness for C4's amended claim at the empty scope (variable undefined)
and at a scope binding `y` (variable defined). -/
theorem claim_malformed_assignment_amended_witness :
    ((evaluateExpression [] "x=y+2").1.success = false ∧
      (evaluateExpression [] "x=y+2").2 = []) ∧
    ((evaluateExpression [("y", 1)] "x=y+2").1.success = true ∧
      (evaluateExpression [("y", 1)] "x=y+2").2 = scopeSet [("y", 1)] "x" (1 + 2)) :=
  ⟨⟨((claim_malformed_assignment_amended []).2.1 rfl).1,
    ((claim_malformed_assignment_amended []).2.1 rfl).2.2⟩,
   ⟨((claim_malformed_assignment_amended [("y", 1)]).2.2 1 rfl).1,
    ((claim_malformed_assignment_amended [("y", 1)]).2.2 1 rfl).2⟩⟩

end MathSolver
